import Mathlib

/-!
Verification development for the delirium binary-lifting front-end.

The Rust sources under scrutiny are embedded shallowly: pure functions
become Lean functions, mutation becomes explicit state passing, and
machine integers become `Nat` with explicit reduction modulo `2 ^ w`
where the code wraps.  Code of the repository that is not present in
the source tree (the `BitVec` value type, the interval containers, the
visitor default hooks and the backend IL types) is modelled from the
specification; each such definition carries a doc comment starting
with `Modelled from the spec:`.
-/

namespace Delirium

/--
Modelled from the spec: the BitVec value type
(`crate::ir::value::bv::BitVec`, not present under `src/`): an
arbitrary-width integer with a signedness flag and a bit width.
The stored value is kept reduced modulo `2 ^ bits` by the operations.
-/
structure BV where
  val : Nat
  bits : Nat
  signed : Bool
  deriving DecidableEq, Repr

namespace BV

/-- Well-formedness: the value fits the declared width. -/
def WF (v : BV) : Prop := v.val < 2 ^ v.bits

/-- Modelled from the spec: resize to width `w`.  The operand-promotion
rule zero-extends (unsigned cast); all uses in the address code are on
unsigned values, so truncation/zero-extension is the behaviour. -/
def cast (v : BV) (w : Nat) : BV := ⟨v.val % 2 ^ w, w, v.signed⟩

/-- Modelled from the spec: zero-extension or truncation to width `w`,
clearing the signedness flag. -/
def unsigned_cast (v : BV) (w : Nat) : BV := ⟨v.val % 2 ^ w, w, false⟩

/-- Modelled from the spec: reinterpret as unsigned. -/
def unsigned (v : BV) : BV := ⟨v.val, v.bits, false⟩

/-- Modelled from the spec: build an unsigned BitVec of width `w` from a
host-sized integer, wrapping. -/
def from_usize (k w : Nat) : BV := ⟨k % 2 ^ w, w, false⟩

/-- Modelled from the spec: convert to a host-sized (64-bit) integer
when representable. -/
def to_usize (v : BV) : Option Nat :=
  if v.val < 2 ^ 64 then some v.val else none

/-- Modelled from the spec: convert to `u64` when representable. -/
def to_u64 (v : BV) : Option Nat :=
  if v.val < 2 ^ 64 then some v.val else none

/-- Modelled from the spec, step (1)-(4) of binary operators: promote
both operands to `w = max`, zero-extend, add, wrap modulo `2 ^ w`. -/
def add (a b : BV) : BV :=
  let w := max a.bits b.bits
  ⟨((a.unsigned_cast w).val + (b.unsigned_cast w).val) % 2 ^ w, w, a.signed⟩

/-- Modelled from the spec: subtraction wraps modulo `2 ^ w` after
promotion to the maximum width. -/
def sub (a b : BV) : BV :=
  let w := max a.bits b.bits
  ⟨((a.unsigned_cast w).val + (2 ^ w - (b.unsigned_cast w).val)) % 2 ^ w, w, a.signed⟩

/-- Modelled from the spec: multiplication wraps modulo `2 ^ w` after
promotion to the maximum width. -/
def mul (a b : BV) : BV :=
  let w := max a.bits b.bits
  ⟨((a.unsigned_cast w).val * (b.unsigned_cast w).val) % 2 ^ w, w, a.signed⟩

/-- Modelled from the spec: modulo on the (unsigned) operands after
width promotion.  A zero divisor fails deterministically with a
sentinel; the spec does not fix the sentinel value and no claim
exercises it, we use the all-ones pattern. -/
def rem (a b : BV) : BV :=
  let w := max a.bits b.bits
  let x := (a.unsigned_cast w).val
  let y := (b.unsigned_cast w).val
  if y = 0 then ⟨2 ^ w - 1, w, a.signed⟩ else ⟨x % y, w, a.signed⟩

/-- Modelled from the spec: logical shift left at the operand's width. -/
def shl (v : BV) (s : Nat) : BV := ⟨(v.val <<< s) % 2 ^ v.bits, v.bits, v.signed⟩

/-- Modelled from the spec: logical shift right at the operand's width
(the region code only shifts unsigned values). -/
def shr (v : BV) (s : Nat) : BV := ⟨v.val >>> s, v.bits, v.signed⟩

/-- Modelled from the spec: bitwise and after width promotion. -/
def land (a b : BV) : BV :=
  let w := max a.bits b.bits
  ⟨(a.unsigned_cast w).val &&& (b.unsigned_cast w).val, w, a.signed⟩

/-- Modelled from the spec: bitwise or after width promotion. -/
def lor (a b : BV) : BV :=
  let w := max a.bits b.bits
  ⟨(a.unsigned_cast w).val ||| (b.unsigned_cast w).val, w, a.signed⟩

/-- Modelled from the spec: bitwise complement at the operand's width. -/
def lnot (v : BV) : BV :=
  ⟨(2 ^ v.bits - 1) ^^^ (v.val % 2 ^ v.bits), v.bits, v.signed⟩

/-- Modelled from the spec: the all-ones (unsigned maximum) value of
width `w`. -/
def max_value_with (w : Nat) (signed : Bool) : BV := ⟨2 ^ w - 1, w, signed⟩

/-- Little-endian value of a byte list (first byte least significant). -/
def leVal : List Nat → Nat
  | [] => 0
  | b :: bs => b + 256 * leVal bs

/-- Modelled from the spec: interpret a byte slice as a little-endian
unsigned BitVec of width `8 * length`. -/
def from_le_bytes (l : List Nat) : BV := ⟨leVal l, 8 * l.length, false⟩

/-- Modelled from the spec: interpret a byte slice as a big-endian
unsigned BitVec of width `8 * length`. -/
def from_be_bytes (l : List Nat) : BV := ⟨leVal l.reverse, 8 * l.length, false⟩

/-- The `count` little-endian bytes of a natural number. -/
def leBytes : Nat → Nat → List Nat
  | _, 0 => []
  | n, c + 1 => n % 256 :: leBytes (n / 256) c

/-- Modelled from the spec: serialise into `count` bytes, little-endian. -/
def to_le_bytes (v : BV) (count : Nat) : List Nat := leBytes v.val count

/-- Modelled from the spec: serialise into `count` bytes, big-endian. -/
def to_be_bytes (v : BV) (count : Nat) : List Nat := (leBytes v.val count).reverse

end BV

/-!
`Address` operations, translated from `src/src/ir/memory/address.rs`.
An address is a `BV` that the constructors force to be unsigned.
-/

namespace Address

/-- `impl From<BitVec> for Address` (address.rs:56): force unsigned.
The zero-width panic is outside the embedded domain; every address in
the claims has positive width. -/
def ofBV (v : BV) : BV := v.unsigned

/-- `impl Add<Address> for Address` (address.rs:124): promote the
narrower operand with `cast`, then delegate to BitVec addition. -/
def add (a b : BV) : BV :=
  ofBV (match compare a.bits b.bits with
  | .eq => BV.add a b
  | .lt => BV.add (a.cast b.bits) b
  | .gt => BV.add a (b.cast a.bits))

/-- `impl Add<usize> for Address` / `impl Add<usize> for &Address`
(address.rs:154, 195): wrap the host integer at the address width and
add. -/
def add_usize (a : BV) (k : Nat) : BV :=
  ofBV (BV.add a (BV.from_usize k a.bits))

/-- `impl Sub<&Address> for &Address` (address.rs:508): promote the
narrower operand with `unsigned_cast`, then delegate to BitVec
subtraction. -/
def sub (a b : BV) : BV :=
  ofBV (match compare a.bits b.bits with
  | .eq => BV.sub a b
  | .lt => BV.sub (a.unsigned_cast b.bits) b
  | .gt => BV.sub a (b.unsigned_cast a.bits))

/-- `impl Mul<usize> for Address` (address.rs:318): the body delegates
to `rem`, not `mul` --- translated as written. -/
def mul_usize (a : BV) (k : Nat) : BV :=
  ofBV (BV.rem a (BV.from_usize k a.bits))

/-- `impl Ord for Address` (address.rs:554): promote the narrower
operand with `unsigned_cast`, then compare the unsigned values. -/
def cmp (a b : BV) : Ordering :=
  match compare a.bits b.bits with
  | .eq => compare a.val b.val
  | .lt => compare (a.unsigned_cast b.bits).val b.val
  | .gt => compare a.val (b.unsigned_cast a.bits).val

/-- `Address::absolute_difference` (address.rs:591): `|a - b|` as a
host-sized integer when representable. -/
def absolute_difference (a b : BV) : Option Nat :=
  if cmp a b ≠ .lt then (sub a b).to_usize else (sub b a).to_usize

end Address

/-! ### Arithmetic characterisations of the address operations -/

theorem two_pow_le_two_pow {w w' : Nat} (h : w ≤ w') : (2 : Nat) ^ w ≤ 2 ^ w' :=
  Nat.pow_le_pow_right (by norm_num) h

theorem Address.add_usize_val (a : BV) (k : Nat) (ha : a.WF) :
    Address.add_usize a k = ⟨(a.val + k % 2 ^ a.bits) % 2 ^ a.bits, a.bits, false⟩ := by
  simp only [Address.add_usize, Address.ofBV, BV.add, BV.from_usize, BV.unsigned_cast,
    BV.unsigned, Nat.max_self]
  congr 1
  rw [Nat.mod_eq_of_lt ha, Nat.mod_mod]

theorem Address.cmp_eq_compare (a b : BV) (ha : a.WF) (hb : b.WF) :
    Address.cmp a b = compare a.val b.val := by
  rcases Nat.lt_trichotomy a.bits b.bits with hbits | hbits | hbits
  · have hc : compare a.bits b.bits = .lt := Nat.compare_eq_lt.mpr hbits
    have ha2 : a.val < 2 ^ b.bits := lt_of_lt_of_le ha (two_pow_le_two_pow (le_of_lt hbits))
    simp [Address.cmp, hc, BV.unsigned_cast, Nat.mod_eq_of_lt ha2]
  · have hc : compare a.bits b.bits = .eq := Nat.compare_eq_eq.mpr hbits
    simp [Address.cmp, hc]
  · have hc : compare a.bits b.bits = .gt := Nat.compare_eq_gt.mpr hbits
    have hb2 : b.val < 2 ^ a.bits := lt_of_lt_of_le hb (two_pow_le_two_pow (le_of_lt hbits))
    simp [Address.cmp, hc, BV.unsigned_cast, Nat.mod_eq_of_lt hb2]

theorem Address.sub_val_of_le (a b : BV) (ha : a.WF) (hb : b.WF) (h : b.val ≤ a.val) :
    Address.sub a b = ⟨a.val - b.val, max a.bits b.bits, false⟩ := by
  have key : ∀ w : Nat, a.val < 2 ^ w → b.val < 2 ^ w →
      (a.val % 2 ^ w + (2 ^ w - b.val % 2 ^ w)) % 2 ^ w = a.val - b.val := by
    intro w ha2 hb2
    rw [Nat.mod_eq_of_lt ha2, Nat.mod_eq_of_lt hb2]
    have heq : a.val + (2 ^ w - b.val) = (a.val - b.val) + 2 ^ w := by omega
    rw [heq, Nat.add_mod_right, Nat.mod_eq_of_lt (by omega)]
  rcases Nat.lt_trichotomy a.bits b.bits with hbits | hbits | hbits
  · have hc : compare a.bits b.bits = .lt := Nat.compare_eq_lt.mpr hbits
    have ha2 : a.val < 2 ^ b.bits := lt_of_lt_of_le ha (two_pow_le_two_pow (le_of_lt hbits))
    have hmax : max a.bits b.bits = b.bits := Nat.max_eq_right (le_of_lt hbits)
    simp only [Address.sub, hc, Address.ofBV, BV.sub, BV.unsigned_cast, BV.unsigned,
      Nat.max_self, Nat.mod_mod, hmax]
    exact congrArg (fun n => BV.mk n b.bits false) (key _ ha2 hb)
  · have hc : compare a.bits b.bits = .eq := Nat.compare_eq_eq.mpr hbits
    have hmax : max a.bits b.bits = a.bits := by omega
    simp only [Address.sub, hc, Address.ofBV, BV.sub, BV.unsigned_cast, BV.unsigned,
      Nat.max_self, hmax]
    exact congrArg (fun n => BV.mk n a.bits false) (key _ ha (hbits ▸ hb))
  · have hc : compare a.bits b.bits = .gt := Nat.compare_eq_gt.mpr hbits
    have hb2 : b.val < 2 ^ a.bits := lt_of_lt_of_le hb (two_pow_le_two_pow (le_of_lt hbits))
    have hmax : max a.bits b.bits = a.bits := Nat.max_eq_left (le_of_lt hbits)
    simp only [Address.sub, hc, Address.ofBV, BV.sub, BV.unsigned_cast, BV.unsigned,
      Nat.max_self, Nat.mod_mod, hmax]
    exact congrArg (fun n => BV.mk n a.bits false) (key _ ha hb2)

/--
Claim C6: for Addresses `a` and `b`, `a + b` has width
`max a.bits b.bits`, is unsigned, and its value is the sum of the
zero-extended operands reduced modulo `2 ^ max`; the claim's instance
`Addr(0xff:u8) + Addr(0x1:u16) = Addr(0x100:u16)` follows (see the
witness).
-/
theorem addr_add_width_promotion (a b : BV) (ha : a.WF) (hb : b.WF) :
    Address.add a b =
      ⟨(a.val + b.val) % 2 ^ max a.bits b.bits, max a.bits b.bits, false⟩ := by
  rcases Nat.lt_trichotomy a.bits b.bits with hbits | hbits | hbits
  · have hc : compare a.bits b.bits = .lt := Nat.compare_eq_lt.mpr hbits
    have ha2 : a.val < 2 ^ b.bits := lt_of_lt_of_le ha (two_pow_le_two_pow (le_of_lt hbits))
    have hmax : max a.bits b.bits = b.bits := Nat.max_eq_right (le_of_lt hbits)
    simp [Address.add, hc, Address.ofBV, BV.add, BV.cast, BV.unsigned_cast, BV.unsigned,
      Nat.mod_eq_of_lt ha2, Nat.mod_eq_of_lt hb, hmax]
  · have hc : compare a.bits b.bits = .eq := Nat.compare_eq_eq.mpr hbits
    have hmax : max a.bits b.bits = a.bits := by omega
    simp [Address.add, hc, Address.ofBV, BV.add, BV.cast, BV.unsigned_cast, BV.unsigned,
      Nat.mod_eq_of_lt ha, Nat.mod_eq_of_lt (hbits ▸ hb : b.val < 2 ^ a.bits), hmax]
  · have hc : compare a.bits b.bits = .gt := Nat.compare_eq_gt.mpr hbits
    have hb2 : b.val < 2 ^ a.bits := lt_of_lt_of_le hb (two_pow_le_two_pow (le_of_lt hbits))
    have hmax : max a.bits b.bits = a.bits := Nat.max_eq_left (le_of_lt hbits)
    simp [Address.add, hc, Address.ofBV, BV.add, BV.cast, BV.unsigned_cast, BV.unsigned,
      Nat.mod_eq_of_lt ha, Nat.mod_eq_of_lt hb2, hmax]

/--
Witness for C6: the spec's scenario S1,
`Addr(0xff:u8) + Addr(0x1:u16) = Addr(0x100:u16)`.
-/
theorem addr_add_width_promotion_witness :
    Address.add ⟨0xff, 8, false⟩ ⟨0x1, 16, false⟩ = ⟨0x100, 16, false⟩ := by
  have h := addr_add_width_promotion ⟨0xff, 8, false⟩ ⟨0x1, 16, false⟩
    (by norm_num [BV.WF]) (by norm_num [BV.WF])
  simpa using h

/--
Claim C5 (code bug): the spec's intent is that `Addr * usize` is
wrapping multiplication, but `impl Mul<usize> for Address`
(address.rs:318-327) delegates to `rem`: at the failing input
`Addr(0x6:u8) * 4` the code produces `6 % 4 = 2` whereas wrapping
multiplication would give `24`.
-/
theorem addr_mul_usize_is_rem :
    Address.mul_usize ⟨6, 8, false⟩ 4 = ⟨2, 8, false⟩ ∧
      (6 * 4) % 2 ^ 8 = 24 ∧ (2 : Nat) ≠ 24 := by
  refine ⟨?_, by norm_num, by norm_num⟩
  simp [Address.mul_usize, Address.ofBV, BV.rem, BV.from_usize, BV.unsigned_cast, BV.unsigned]


/-!
`Id` and `Entity`, translated from `src/src/prelude/types/id/mod.rs`
and `src/src/types/entity/mod.rs`.
-/

/-- `Id<T>` (id/mod.rs:9): a static tag plus a 128-bit uuid.  The
phantom marker carries no data and is omitted; the `educe` derive
ignores only the marker field, so `tag` takes part in equality,
ordering and hashing. -/
structure IdT where
  tag : String
  uuid : Nat
  deriving DecidableEq, Repr

namespace IdT

/-- The derived `PartialEq` of `Id` (id/mod.rs:8): field-wise equality
on `tag` and `uuid` (only `marker` carries an ignore attribute). -/
def beq (a b : IdT) : Bool := a.tag == b.tag && a.uuid == b.uuid

/-- The derived `Ord` of `Id` (id/mod.rs:8): lexicographic comparison
of `tag` then `uuid` (only `marker` carries an ignore attribute). -/
def cmp (a b : IdT) : Ordering :=
  match compare a.tag b.tag with
  | .eq => compare a.uuid b.uuid
  | o => o

/-- `Id::from_parts` (id/mod.rs:38). -/
def from_parts (tag : String) (uuid : Nat) : IdT := ⟨tag, uuid⟩

/-- `Id::is_invalid` (id/mod.rs:70): the uuid is zero. -/
def is_invalid (a : IdT) : Bool := a.uuid == 0

end IdT

/-- `Entity<V>` (entity/mod.rs:9): an id paired with an owned value. -/
structure Entity (V : Type) where
  id : IdT
  value : V
  deriving Repr

/-- `impl PartialEq for Entity` (entity/mod.rs:23): equality is by id
alone, regardless of the value. -/
def Entity.beq {V : Type} (a b : Entity V) : Bool := IdT.beq a.id b.id

/--
Claim C4 counterexample: two Ids with equal uuids but different tags
are unequal under the derived equality, and their derived ordering is
not `Equal` --- the tag does take part, refuting "ordering is
determined solely by comparing uuids, the tag playing no role".
-/
theorem id_eq_ignores_tag_counterexample :
    IdT.beq (IdT.from_parts "a" 5) (IdT.from_parts "b" 5) = false ∧
      IdT.cmp (IdT.from_parts "a" 5) (IdT.from_parts "b" 5) ≠ Ordering.eq := by
  constructor
  · decide
  · decide

/--
Claim C4 (amended): the derived equality and ordering of `Id` compare
the tag first and then the uuid, ignoring only the phantom marker; in
particular for two Ids sharing a tag, equality holds iff the uuids are
equal and the ordering is exactly the comparison of the uuids.
-/
theorem id_eq_ord_by_uuid_given_tag (a b : IdT) (h : a.tag = b.tag) :
    (IdT.beq a b = true ↔ a.uuid = b.uuid) ∧
      IdT.cmp a b = compare a.uuid b.uuid := by
  constructor
  · simp [IdT.beq, h]
  · have hc : compare a.tag b.tag = .eq := by
      rw [h]; exact compare_eq_iff_eq.mpr rfl
    simp [IdT.cmp, hc]

/--
Witness for C4 (amended): two Ids sharing the tag `"blk"` with uuids
`7` and `9` compare unequal and order by uuid.
-/
theorem id_eq_ord_by_uuid_given_tag_witness :
    (IdT.beq (IdT.from_parts "blk" 7) (IdT.from_parts "blk" 9) = true ↔ (7 : Nat) = 9) ∧
      IdT.cmp (IdT.from_parts "blk" 7) (IdT.from_parts "blk" 9) = compare (7 : Nat) 9 :=
  id_eq_ord_by_uuid_given_tag (IdT.from_parts "blk" 7) (IdT.from_parts "blk" 9) rfl

/-!
IR node types.  `Var`, `Def`, `Jmp`, `Loc`, `Phi` and `Blk` are
translated from `src/src/ir/{variable,effect,location,phi,block}`;
the IR expression type (`src/src/ir/expression.rs`) is not present
under `src/` and is modelled from the spec.
-/

/-- `VarKind` (variable/mod.rs:14). -/
inductive VarKind where
  | memory (id : IdT)
  | physical (typ : IdT) (bits : Nat)
  | transient (typ : IdT) (bits : Nat)
  deriving DecidableEq, Repr

/-- `Var` (variable/mod.rs:29): named, generation-counted variable. -/
structure Var where
  name : String
  kind : VarKind
  generation : Nat
  deriving DecidableEq, Repr

/-- Modelled from the spec: the IR expression algebra of section 3
(`src/src/ir/expression.rs` is not under `src/`): literals, variable
reference, unary/binary relational and arithmetic ops, cast, load,
extract, concat, if-else, call and intrinsic.  Operator kinds are
abstracted as numeric tags; the claims never inspect them. -/
inductive IRExpr where
  | bv (v : BV)
  | flt (pattern : Nat)
  | varRef (v : Var)
  | unop (op : Nat) (e : IRExpr)
  | unrel (op : Nat) (e : IRExpr)
  | binop (op : Nat) (l r : IRExpr)
  | binrel (op : Nat) (l r : IRExpr)
  | castTo (e : IRExpr) (bits : Nat)
  | load (space : IdT) (size : Nat) (e : IRExpr)
  | extract (e : IRExpr) (lsb msb : Nat)
  | concat (l r : IRExpr)
  | ifelse (c t f : IRExpr)
  | callE (name : String) (args : List IRExpr)
  | intrinsicE (name : String) (args : List IRExpr)

/-- `Loc` (location/mod.rs:5). -/
inductive Loc where
  | resolved (id : IdT)
  | fixed (addr : BV)
  | computed (e : IRExpr)

/-- `Def` (effect/mod.rs:8): data effects. -/
inductive Def where
  | assign (v : Var) (e : IRExpr)
  | assume (e : IRExpr)

/-- `Jmp` (effect/mod.rs:24): control effects. -/
inductive Jmp where
  | branch (l : Loc)
  | cbranch (l : Loc) (c : IRExpr)
  | call (l : Loc) (args : List IRExpr)
  | intrinsic (name : String) (args : List IRExpr)
  | ret (l : Loc)

/-- `Phi` (phi/mod.rs:4). -/
structure Phi where
  var : Var
  choices : List (IRExpr × IRExpr)

/-- `Blk` (block/mod.rs:7). -/
structure Blk where
  addr : Option BV
  phis : List (Entity Phi)
  defs : List (Entity Def)
  jmps : List (Entity Jmp)

namespace Blk

/-- `Blk::split_off` (block/mod.rs:57), with the ids minted by
`Blk::new_with` and `Jmp::branch` made explicit (`nid` for the new
block, `jid` for the branch jmp entity).  `Vec::split_off(pos)` keeps
`defs[..pos]` and moves `defs[pos..]`; `take(&mut self.jmps)` moves all
jmps to the child; the parent then pushes a single unconditional
`Branch` to the child's id.  Returns (mutated parent, new child). -/
def split_off (b : Blk) (nid jid : IdT) (pos : Option Nat) : Blk × Entity Blk :=
  let ndefs := match pos with
    | some p => b.defs.drop p
    | none => []
  let pdefs := match pos with
    | some p => b.defs.take p
    | none => b.defs
  let nblk : Entity Blk := ⟨nid, { addr := none, phis := [], defs := ndefs, jmps := b.jmps }⟩
  ({ b with defs := pdefs, jmps := [⟨jid, Jmp.branch (Loc.resolved nid)⟩] }, nblk)

/-- `Blk::split_top` (block/mod.rs:76). -/
def split_top (b : Blk) (nid jid : IdT) : Blk × Entity Blk :=
  split_off b nid jid (some 0)

/-- `Blk::split_bottom` (block/mod.rs:80). -/
def split_bottom (b : Blk) (nid jid : IdT) : Blk × Entity Blk :=
  split_off b nid jid (some b.defs.length)

/-- `Blk::split_before` (block/mod.rs:84): find the first def with the
given id, or slice off nothing when absent. -/
def split_before (b : Blk) (nid jid : IdT) (d : IdT) : Blk × Entity Blk :=
  split_off b nid jid (b.defs.findIdx? (fun e => IdT.beq e.id d))

/-- `Blk::split_after` (block/mod.rs:90). -/
def split_after (b : Blk) (nid jid : IdT) (d : IdT) : Blk × Entity Blk :=
  split_off b nid jid ((b.defs.findIdx? (fun e => IdT.beq e.id d)).map (· + 1))

end Blk

/-- A concrete def entity used by the C8 scenario. -/
def mkDefEnt (u : Nat) : Entity Def :=
  ⟨IdT.from_parts "def" u, Def.assume (IRExpr.bv ⟨0, 8, false⟩)⟩

/-- A concrete jmp entity used by the C8 scenario. -/
def mkJmpEnt (u : Nat) : Entity Jmp :=
  ⟨IdT.from_parts "jmp" u, Jmp.ret (Loc.fixed ⟨0, 8, false⟩)⟩

/-- The C8 scenario block: defs `[d1, d2, d3]`, jmps `[j1]`. -/
def c8Blk : Blk :=
  { addr := none
    phis := []
    defs := [mkDefEnt 1, mkDefEnt 2, mkDefEnt 3]
    jmps := [mkJmpEnt 4] }

/--
Claim C8: splitting a `Blk` at a resolved position `pos` leaves the
parent with `defs.take pos` and exactly one jmp, an unconditional
Branch to the child's id, while the child receives `defs.drop pos` and
all the old jmps; and in the spec's scenario S7, `split_after d1` on
defs `[d1, d2, d3]` and jmps `[j1]` yields child `([d2, d3], [j1])`
and parent `([d1], [Branch(child.id)])`.
-/
theorem blk_split_off_spec :
    (∀ (b : Blk) (nid jid : IdT) (pos : Nat), pos ≤ b.defs.length →
      (b.split_off nid jid (some pos)).1.defs = b.defs.take pos ∧
      (b.split_off nid jid (some pos)).1.jmps = [⟨jid, Jmp.branch (Loc.resolved nid)⟩] ∧
      (b.split_off nid jid (some pos)).1.jmps.length = 1 ∧
      (b.split_off nid jid (some pos)).2.id = nid ∧
      (b.split_off nid jid (some pos)).2.value.defs = b.defs.drop pos ∧
      (b.split_off nid jid (some pos)).2.value.jmps = b.jmps) ∧
    ((c8Blk.split_after (IdT.from_parts "blk" 9) (IdT.from_parts "jmp" 10)
        (IdT.from_parts "def" 1)).1.defs = [mkDefEnt 1] ∧
      (c8Blk.split_after (IdT.from_parts "blk" 9) (IdT.from_parts "jmp" 10)
        (IdT.from_parts "def" 1)).1.jmps =
        [⟨IdT.from_parts "jmp" 10, Jmp.branch (Loc.resolved (IdT.from_parts "blk" 9))⟩] ∧
      (c8Blk.split_after (IdT.from_parts "blk" 9) (IdT.from_parts "jmp" 10)
        (IdT.from_parts "def" 1)).2.value.defs = [mkDefEnt 2, mkDefEnt 3] ∧
      (c8Blk.split_after (IdT.from_parts "blk" 9) (IdT.from_parts "jmp" 10)
        (IdT.from_parts "def" 1)).2.value.jmps = [mkJmpEnt 4]) := by
  refine ⟨fun b nid jid pos _ => ⟨rfl, rfl, rfl, rfl, rfl, rfl⟩, ?_, ?_, ?_, ?_⟩ <;> rfl

/--
Witness for C8: the general part applied to the S7 scenario block at
position 1 (where `split_after d1` resolves).
-/
theorem blk_split_off_spec_witness :
    (c8Blk.split_off (IdT.from_parts "blk" 9) (IdT.from_parts "jmp" 10) (some 1)).1.defs =
        c8Blk.defs.take 1 ∧
      (c8Blk.split_off (IdT.from_parts "blk" 9) (IdT.from_parts "jmp" 10) (some 1)).2.value.defs =
        c8Blk.defs.drop 1 :=
  ⟨(blk_split_off_spec.1 c8Blk (IdT.from_parts "blk" 9) (IdT.from_parts "jmp" 10) 1
      (by norm_num [c8Blk])).1,
    (blk_split_off_spec.1 c8Blk (IdT.from_parts "blk" 9) (IdT.from_parts "jmp" 10) 1
      (by norm_num [c8Blk])).2.2.2.2.1⟩


/-!
`Region`, translated from `src/src/ir/memory/region.rs`.  The byte
buffer is a list of byte values; mutation is explicit state passing.
-/

/-- Modelled from the spec: byte-order marker
(`crate::prelude::bytes::Endian` is not under `src/`). -/
inductive Endian where
  | little
  | big
  deriving DecidableEq, Repr

/-- `Endian::is_little`. -/
def Endian.is_little : Endian → Bool
  | .little => true
  | .big => false

/-- `RegionIOError` (region.rs:24). -/
inductive RegionError where
  | range (name : String)
  | oobRead (name : String)
  | oobWrite (name : String)
  deriving DecidableEq, Repr

/-- Result of a region operation.  `fault` marks the branch where the
containment checks pass but the Rust byte-slice indexing would still
fall outside the buffer (a panic, not an error return). -/
inductive RRes (α : Type) where
  | ok (x : α)
  | err (e : RegionError)
  | fault
  deriving DecidableEq, Repr

/-- `Region` (region.rs:16): name, start address, endianness and byte
buffer.  The interval field is determined by `start` and the buffer
length and is recomputed where used. -/
structure Region where
  name : String
  start : BV
  endian : Endian
  bytes : List Nat
  deriving DecidableEq, Repr

namespace Region

/-- The one-past-the-end address `start + len`, wrapped at the
address width (region.rs:48). -/
def last_address (r : Region) : BV := Address.add_usize r.start r.bytes.length

/-- Modelled from the spec: membership of the half-open interval
`[start, start + len)` (the interval type is not under `src/`). -/
def contains_point (r : Region) (p : BV) : Bool :=
  Address.cmp r.start p ≠ .gt && Address.cmp p (last_address r) = .lt

/-- `Region::contains_range` (region.rs:100). -/
def contains_range (r : Region) (a : BV) (count : Nat) : Bool :=
  decide (0 < count) && contains_point r a &&
    contains_point r (Address.add_usize a (count - 1))

/-- `Region::view_bytes` (region.rs:225). -/
def view_bytes (r : Region) (a : BV) (count : Nat) : RRes (List Nat) :=
  if contains_range r a count = false then .err (.oobRead r.name)
  else match Address.absolute_difference a r.start with
    | none => .err (.range r.name)
    | some off =>
      if off + count ≤ r.bytes.length then .ok ((r.bytes.drop off).take count)
      else .fault

/-- `Region::view_bytes_mut` (region.rs:242); also returns the byte
offset so the caller can reassemble the mutated buffer. -/
def view_bytes_mut (r : Region) (a : BV) (count : Nat) : RRes (Nat × List Nat) :=
  if contains_range r a count = false then .err (.oobWrite r.name)
  else match Address.absolute_difference a r.start with
    | none => .err (.range r.name)
    | some off =>
      if off + count ≤ r.bytes.length then .ok (off, (r.bytes.drop off).take count)
      else .fault

/-- The byte count `bits / 8 + if aligned { 0 } else { 1 }` shared by
`read_bits` and `write_bits` (region.rs:113, 141). -/
def bitCount (bits : Nat) : Nat :=
  bits / 8 + if (bits % 8 == 0 : Bool) then 0 else 1

/-- `Region::read_bits` (region.rs:107). -/
def read_bits (r : Region) (a : BV) (bits : Nat) : RRes BV :=
  match view_bytes r a (bitCount bits) with
  | .err e => .err e
  | .fault => .fault
  | .ok range =>
    let bv := if r.endian.is_little then BV.from_le_bytes range else BV.from_be_bytes range
    if (bits % 8 == 0 : Bool) then .ok bv
    else if r.endian.is_little then .ok (bv.cast bits)
    else .ok ((bv.shr (8 - bits % 8)).cast bits)

/-- The replacement bytes computed by `Region::write_bits`
(region.rs:144-168): serialise directly when byte-aligned, otherwise
mask the bit window out of the covering bytes and or-in the shifted
new value. -/
def combined_bytes (endian : Endian) (v : BV) (count : Nat) (range : List Nat) : List Nat :=
  if (v.bits % 8 == 0 : Bool) then
    if endian.is_little then BV.to_le_bytes v count else BV.to_be_bytes v count
  else
    let nbits := count * 8
    let shift := 8 - v.bits % 8
    if endian.is_little then
      let mask := (BV.max_value_with nbits false).shr shift
      let orig := BV.land (BV.from_le_bytes range) mask.lnot
      let comb := BV.lor (BV.land (v.unsigned_cast nbits) mask) orig
      BV.to_le_bytes comb count
    else
      let mask := (BV.max_value_with nbits false).shl shift
      let orig := BV.land (BV.from_be_bytes range) mask.lnot
      let comb := BV.lor (BV.land ((v.unsigned_cast nbits).shl shift) mask) orig
      BV.to_be_bytes comb count

/-- `Region::write_bits` (region.rs:131), in state-passing form: the
pair holds the operation result and the region afterwards.  The checks
of `view_bytes_mut` precede the construction of the new buffer, as in
the source. -/
def write_bits (r : Region) (a : BV) (v : BV) : RRes Unit × Region :=
  match view_bytes_mut r a (bitCount v.bits) with
  | .err e => (.err e, r)
  | .fault => (.fault, r)
  | .ok (off, range) =>
    (.ok (), { r with bytes := (r.bytes.take off ++ combined_bytes r.endian v (bitCount v.bits) range ++ r.bytes.drop (off + bitCount v.bits)) })

end Region

/-! ### Byte-list and bit-mask helper lemmas -/

theorem leVal_lt (l : List Nat) (h : ∀ x ∈ l, x < 256) :
    BV.leVal l < 256 ^ l.length := by
  induction l with
  | nil => simp [BV.leVal]
  | cons b bs ih =>
    have hb : b < 256 := h b (List.mem_cons_self _ _)
    have hbs : BV.leVal bs < 256 ^ bs.length :=
      ih (fun x hx => h x (List.mem_cons_of_mem _ hx))
    have h1 : BV.leVal bs + 1 ≤ 256 ^ bs.length := hbs
    calc b + 256 * BV.leVal bs < 256 * (BV.leVal bs + 1) := by omega
    _ ≤ 256 * 256 ^ bs.length := Nat.mul_le_mul_left _ h1
    _ = 256 ^ (b :: bs).length := by
        simp [List.length_cons, pow_succ, Nat.mul_comm]

theorem leBytes_length (n c : Nat) : (BV.leBytes n c).length = c := by
  induction c generalizing n with
  | zero => rfl
  | succ c ih => simp [BV.leBytes, ih]

theorem leVal_leBytes (n c : Nat) : BV.leVal (BV.leBytes n c) = n % 256 ^ c := by
  induction c generalizing n with
  | zero => simp [BV.leBytes, BV.leVal, Nat.mod_one]
  | succ c ih =>
    simp only [BV.leBytes, BV.leVal, ih]
    rw [pow_succ, Nat.mul_comm (256 ^ c) 256, Nat.mod_mul]

theorem leBytes_bytes_lt (n c : Nat) : ∀ x ∈ BV.leBytes n c, x < 256 := by
  induction c generalizing n with
  | zero => intro x hx; simp [BV.leBytes] at hx
  | succ c ih =>
    intro x hx
    simp only [BV.leBytes, List.mem_cons] at hx
    rcases hx with hx | hx
    · subst hx; exact Nat.mod_lt _ (by norm_num)
    · exact ih _ x hx

theorem land_two_pow_sub_one (x k : Nat) : x &&& (2 ^ k - 1) = x % 2 ^ k := by
  apply Nat.eq_of_testBit_eq
  intro i
  simp [Nat.testBit_and, Nat.testBit_two_pow_sub_one, Nat.testBit_mod_two_pow, Bool.and_comm]

theorem two_pow_sub_one_shr (n s : Nat) (h : s ≤ n) :
    (2 ^ n - 1) >>> s = 2 ^ (n - s) - 1 := by
  apply Nat.eq_of_testBit_eq
  intro i
  simp only [Nat.testBit_shiftRight, Nat.testBit_two_pow_sub_one]
  exact decide_eq_decide.mpr (by omega)

theorem shiftLeft_lt_two_pow {x s n : Nat} (h : x < 2 ^ (n - s)) (hs : s ≤ n) :
    x <<< s < 2 ^ n := by
  rw [Nat.shiftLeft_eq]
  calc x * 2 ^ s < 2 ^ (n - s) * 2 ^ s := by
        exact Nat.mul_lt_mul_of_lt_of_le h (le_refl _) (Nat.pos_pow_of_pos _ (by norm_num))
  _ = 2 ^ n := by rw [← pow_add]; congr 1; omega

theorem two_five_six_pow (c : Nat) : (256 : Nat) ^ c = 2 ^ (8 * c) := by
  rw [show (256 : Nat) = 2 ^ 8 by norm_num, ← pow_mul]


/-! ### Characterising successful region views -/

theorem view_bytes_mut_ok_elim {r : Region} {a : BV} {count off : Nat} {range : List Nat}
    (h : Region.view_bytes_mut r a count = .ok (off, range)) :
    Region.contains_range r a count = true ∧
      Address.absolute_difference a r.start = some off ∧
      off + count ≤ r.bytes.length ∧
      range = (r.bytes.drop off).take count := by
  unfold Region.view_bytes_mut at h
  split at h
  · exact absurd h (by simp)
  · rename_i hcf
    split at h
    · exact absurd h (by simp)
    · rename_i off' hoff
      split at h
      · rename_i hle
        have h1 := h
        simp only [RRes.ok.injEq, Prod.mk.injEq] at h1
        obtain ⟨rfl, h2⟩ := h1
        refine ⟨?_, hoff, hle, h2.symm⟩
        cases hc : Region.contains_range r a count
        · exact absurd hc hcf
        · rfl
      · exact absurd h (by simp)

theorem view_bytes_ok_intro {r : Region} {a : BV} {count off : Nat}
    (hc : Region.contains_range r a count = true)
    (hoff : Address.absolute_difference a r.start = some off)
    (hle : off + count ≤ r.bytes.length) :
    Region.view_bytes r a count = .ok ((r.bytes.drop off).take count) := by
  unfold Region.view_bytes
  rw [hc]
  simp only [Bool.true_eq_false, if_false, hoff, hle, if_true]

theorem contains_range_bytes_congr (r : Region) (bytes' : List Nat)
    (h : bytes'.length = r.bytes.length) (a : BV) (count : Nat) :
    Region.contains_range { r with bytes := bytes' } a count =
      Region.contains_range r a count := by
  simp [Region.contains_range, Region.contains_point, Region.last_address, h]

/-! ### The bit-window lemmas behind the partial write -/

theorem le_word_spec (v L bits shift : Nat) (hv : v < 2 ^ bits)
    (hL : L < 2 ^ (bits + shift)) :
    (v ||| (L &&& ((2 ^ (bits + shift) - 1) ^^^ (2 ^ bits - 1)))) < 2 ^ (bits + shift) ∧
      (v ||| (L &&& ((2 ^ (bits + shift) - 1) ^^^ (2 ^ bits - 1)))) % 2 ^ bits = v ∧
      ∀ i, bits ≤ i →
        (v ||| (L &&& ((2 ^ (bits + shift) - 1) ^^^ (2 ^ bits - 1)))).testBit i =
          L.testBit i := by
  have hvn : v < 2 ^ (bits + shift) :=
    lt_of_lt_of_le hv (two_pow_le_two_pow (by omega))
  have hp1 : (0 : Nat) < 2 ^ (bits + shift) := Nat.pos_pow_of_pos _ (by norm_num)
  have hp2 : (2 : Nat) ^ bits ≤ 2 ^ (bits + shift) :=
    two_pow_le_two_pow (by omega)
  have hxor : (2 ^ (bits + shift) - 1) ^^^ (2 ^ bits - 1) < 2 ^ (bits + shift) :=
    Nat.xor_lt_two_pow (by omega) (by omega)
  refine ⟨?_, ?_, ?_⟩
  · exact Nat.or_lt_two_pow hvn (Nat.and_lt_two_pow _ hxor)
  · apply Nat.eq_of_testBit_eq
    intro i
    by_cases hib : i < bits
    · have h1 : i < bits + shift := by omega
      simp [Nat.testBit_mod_two_pow, Nat.testBit_or, Nat.testBit_and, Nat.testBit_xor,
        Nat.testBit_two_pow_sub_one, hib, h1]
    · have hvb : v.testBit i = false :=
        Nat.testBit_lt_two_pow (lt_of_lt_of_le hv
          (two_pow_le_two_pow (le_of_not_lt hib)))
      simp [Nat.testBit_mod_two_pow, hib, hvb]
  · intro i hbi
    have hvb : v.testBit i = false :=
      Nat.testBit_lt_two_pow (lt_of_lt_of_le hv (two_pow_le_two_pow hbi))
    by_cases hin : i < bits + shift
    · simp [Nat.testBit_or, Nat.testBit_and, Nat.testBit_xor,
        Nat.testBit_two_pow_sub_one, hvb, hin, Nat.not_lt.mpr hbi]
    · have hLb : L.testBit i = false :=
        Nat.testBit_lt_two_pow (lt_of_lt_of_le hL
          (two_pow_le_two_pow (le_of_not_lt hin)))
      simp [Nat.testBit_or, Nat.testBit_and, Nat.testBit_xor,
        Nat.testBit_two_pow_sub_one, hvb, hin, hLb]

theorem be_word_spec (v B bits shift : Nat) (hv : v < 2 ^ bits)
    (hB : B < 2 ^ (bits + shift)) :
    (((v <<< shift) &&& (((2 ^ (bits + shift) - 1) <<< shift) % 2 ^ (bits + shift))) |||
        (B &&& ((2 ^ (bits + shift) - 1) ^^^
          (((2 ^ (bits + shift) - 1) <<< shift) % 2 ^ (bits + shift))))) <
        2 ^ (bits + shift) ∧
      ((((v <<< shift) &&& (((2 ^ (bits + shift) - 1) <<< shift) % 2 ^ (bits + shift))) |||
        (B &&& ((2 ^ (bits + shift) - 1) ^^^
          (((2 ^ (bits + shift) - 1) <<< shift) % 2 ^ (bits + shift))))) >>> shift) %
          2 ^ bits = v ∧
      (∀ i, i < shift →
        (((v <<< shift) &&& (((2 ^ (bits + shift) - 1) <<< shift) % 2 ^ (bits + shift))) |||
          (B &&& ((2 ^ (bits + shift) - 1) ^^^
            (((2 ^ (bits + shift) - 1) <<< shift) % 2 ^ (bits + shift))))).testBit i =
          B.testBit i) ∧
      ∀ i, bits + shift ≤ i →
        (((v <<< shift) &&& (((2 ^ (bits + shift) - 1) <<< shift) % 2 ^ (bits + shift))) |||
          (B &&& ((2 ^ (bits + shift) - 1) ^^^
            (((2 ^ (bits + shift) - 1) <<< shift) % 2 ^ (bits + shift))))).testBit i =
          B.testBit i := by
  have hpos : (0 : Nat) < 2 ^ (bits + shift) := Nat.pos_pow_of_pos _ (by norm_num)
  have hM : ((2 ^ (bits + shift) - 1) <<< shift) % 2 ^ (bits + shift) < 2 ^ (bits + shift) :=
    Nat.mod_lt _ hpos
  have hMbit : ∀ j, (((2 ^ (bits + shift) - 1) <<< shift) % 2 ^ (bits + shift)).testBit j =
      (decide (j < bits + shift) && (decide (shift ≤ j) && decide (j - shift < bits + shift))) := by
    intro j
    simp [Nat.testBit_mod_two_pow, Nat.testBit_shiftLeft, Nat.testBit_two_pow_sub_one,
      Bool.and_assoc]
  refine ⟨?_, ?_, ?_, ?_⟩
  · exact Nat.or_lt_two_pow (Nat.and_lt_two_pow _ hM)
      (Nat.and_lt_two_pow _ (Nat.xor_lt_two_pow (by omega) hM))
  · apply Nat.eq_of_testBit_eq
    intro i
    by_cases hib : i < bits
    · have e1 : shift + i - shift = i := by omega
      simp only [Nat.testBit_mod_two_pow, Nat.testBit_shiftRight, Nat.testBit_or,
        Nat.testBit_and, Nat.testBit_xor, hMbit, Nat.testBit_shiftLeft,
        Nat.testBit_two_pow_sub_one, e1]
      have c1 : decide (i < bits) = true := by simpa using hib
      have c2 : decide (shift + i < bits + shift) = true := by
        simp only [decide_eq_true_eq]; omega
      have c3 : decide (shift ≤ shift + i) = true := by
        simp only [decide_eq_true_eq]; omega
      have c4 : decide (i < bits + shift) = true := by
        simp only [decide_eq_true_eq]; omega
      rw [c1, c2, c3, c4]
      simp
    · have hvb : v.testBit i = false :=
        Nat.testBit_lt_two_pow (lt_of_lt_of_le hv
          (two_pow_le_two_pow (le_of_not_lt hib)))
      simp [Nat.testBit_mod_two_pow, hib, hvb]
  · intro i hi
    have hsle : decide (shift ≤ i) = false := by
      simp only [decide_eq_false_iff_not]; omega
    have hin : decide (i < bits + shift) = true := by
      simp only [decide_eq_true_eq]; omega
    simp [Nat.testBit_or, Nat.testBit_and, Nat.testBit_xor, hMbit, hsle, hin,
      Nat.testBit_shiftLeft]
  · intro i hi
    have hin : decide (i < bits + shift) = false := by
      simp only [decide_eq_false_iff_not]; omega
    have hBb : B.testBit i = false :=
      Nat.testBit_lt_two_pow (lt_of_lt_of_le hB (two_pow_le_two_pow (by omega)))
    simp [Nat.testBit_or, Nat.testBit_and, Nat.testBit_xor, hMbit, hin, hBb]


/-! ### Case lemmas for `write_bits` and `read_bits` -/

theorem write_bits_ok_case {r : Region} {a v : BV} {off : Nat} {range : List Nat}
    (h : Region.view_bytes_mut r a (Region.bitCount v.bits) = .ok (off, range)) :
    Region.write_bits r a v =
      (.ok (), { r with bytes := (r.bytes.take off ++ Region.combined_bytes r.endian v (Region.bitCount v.bits) range ++ r.bytes.drop (off + Region.bitCount v.bits)) }) := by
  unfold Region.write_bits
  rw [h]

theorem write_bits_err_case {r : Region} {a v : BV} {e : RegionError}
    (h : Region.view_bytes_mut r a (Region.bitCount v.bits) = .err e) :
    Region.write_bits r a v = (.err e, r) := by
  unfold Region.write_bits
  rw [h]

theorem write_bits_fault_case {r : Region} {a v : BV}
    (h : Region.view_bytes_mut r a (Region.bitCount v.bits) = .fault) :
    Region.write_bits r a v = (.fault, r) := by
  unfold Region.write_bits
  rw [h]

theorem read_bits_ok_case {r : Region} {a : BV} {bits : Nat} {range : List Nat}
    (h : Region.view_bytes r a (Region.bitCount bits) = .ok range) :
    Region.read_bits r a bits =
      (if (bits % 8 == 0 : Bool) then
        .ok (if r.endian.is_little then BV.from_le_bytes range else BV.from_be_bytes range)
      else if r.endian.is_little then
        .ok ((if r.endian.is_little then BV.from_le_bytes range else BV.from_be_bytes range).cast bits)
      else
        .ok (((if r.endian.is_little then BV.from_le_bytes range else BV.from_be_bytes range).shr (8 - bits % 8)).cast bits)) := by
  unfold Region.read_bits
  rw [h]

theorem combined_bytes_length (e : Endian) (v : BV) (c : Nat) (range : List Nat) :
    (Region.combined_bytes e v c range).length = c := by
  unfold Region.combined_bytes
  split_ifs <;> simp [BV.to_le_bytes, BV.to_be_bytes, leBytes_length]

/--
Claim C10: when `write_bits` returns an error (OOBWrite or Range), the
region's byte buffer is unchanged --- the out-of-bounds and offset
checks of `view_bytes_mut` precede any mutation, so a failed write is
atomic.
-/
theorem write_bits_error_atomic (r : Region) (a v : BV) (e : RegionError)
    (h : (Region.write_bits r a v).1 = .err e) :
    (Region.write_bits r a v).2 = r := by
  cases hvb : Region.view_bytes_mut r a (Region.bitCount v.bits) with
  | ok p =>
    obtain ⟨off, range⟩ := p
    rw [write_bits_ok_case hvb] at h
    exact absurd h (by simp)
  | err e2 =>
    rw [write_bits_err_case hvb]
  | fault =>
    rw [write_bits_fault_case hvb] at h
    exact absurd h (by simp)

/--
Witness for C10: writing one byte at `0x20` into a one-byte region
based at `0x10` fails with OOBWrite and leaves the buffer untouched.
-/
theorem write_bits_error_atomic_witness :
    (Region.write_bits ⟨"r0", ⟨0x10, 8, false⟩, .little, [0xAB]⟩
        ⟨0x20, 8, false⟩ ⟨1, 8, false⟩).1 = .err (.oobWrite "r0") ∧
      (Region.write_bits ⟨"r0", ⟨0x10, 8, false⟩, .little, [0xAB]⟩
        ⟨0x20, 8, false⟩ ⟨1, 8, false⟩).2 = ⟨"r0", ⟨0x10, 8, false⟩, .little, [0xAB]⟩ :=
  ⟨by decide, write_bits_error_atomic _ _ _ (.oobWrite "r0") (by decide)⟩


/-! ### Evaluating `combined_bytes` in its four regimes -/

theorem combined_bytes_le_aligned (v : BV) (c : Nat) (range : List Nat)
    (hal : v.bits % 8 = 0) :
    Region.combined_bytes .little v c range = BV.leBytes v.val c := by
  have halb : (v.bits % 8 == 0) = true := by simp [hal]
  unfold Region.combined_bytes
  simp [halb, Endian.is_little, BV.to_le_bytes]

theorem combined_bytes_be_aligned (v : BV) (c : Nat) (range : List Nat)
    (hal : v.bits % 8 = 0) :
    Region.combined_bytes .big v c range = (BV.leBytes v.val c).reverse := by
  have halb : (v.bits % 8 == 0) = true := by simp [hal]
  unfold Region.combined_bytes
  simp [halb, Endian.is_little, BV.to_be_bytes]

theorem combined_bytes_le_unaligned (v : BV) (c : Nat) (range : List Nat)
    (halx : v.bits % 8 ≠ 0) (hc : c = v.bits / 8 + 1) (hv : v.WF)
    (hL : BV.leVal range < 2 ^ (c * 8)) (hlen : range.length = c) :
    Region.combined_bytes .little v c range =
      BV.leBytes (v.val ||| (BV.leVal range &&&
        ((2 ^ (c * 8) - 1) ^^^ (2 ^ v.bits - 1)))) c := by
  have halb : (v.bits % 8 == 0) = false := by simp [halx]
  have hsh : 8 - v.bits % 8 ≤ c * 8 := by omega
  have harr : c * 8 - (8 - v.bits % 8) = v.bits := by omega
  have hblt : (2 : Nat) ^ v.bits ≤ 2 ^ (c * 8) := two_pow_le_two_pow (by omega)
  have hp : (0 : Nat) < 2 ^ v.bits := Nat.pos_pow_of_pos _ (by norm_num)
  have hvlt : v.val < 2 ^ (c * 8) := lt_of_lt_of_le hv hblt
  have hxlt : (2 ^ (c * 8) - 1) ^^^ (2 ^ v.bits - 1) < 2 ^ (c * 8) :=
    Nat.xor_lt_two_pow (by omega) (by omega)
  have h8 : 8 * range.length = c * 8 := by rw [hlen]; ring
  unfold Region.combined_bytes
  simp only [halb, Bool.false_eq_true, if_false, Endian.is_little, if_true]
  simp only [BV.to_le_bytes, BV.lor, BV.land, BV.lnot, BV.shr, BV.max_value_with,
    BV.unsigned_cast, BV.from_le_bytes]
  simp only [h8, Nat.max_self]
  rw [two_pow_sub_one_shr _ _ hsh, harr]
  congr 1
  rw [Nat.mod_mod, Nat.mod_eq_of_lt hvlt, Nat.mod_eq_of_lt (by omega : 2 ^ v.bits - 1 < 2 ^ (c * 8)),
    Nat.mod_eq_of_lt hL, Nat.mod_eq_of_lt hxlt, land_two_pow_sub_one, Nat.mod_eq_of_lt hv,
    Nat.mod_eq_of_lt hvlt, Nat.mod_eq_of_lt (Nat.and_lt_two_pow _ hxlt)]

theorem combined_bytes_be_unaligned (v : BV) (c : Nat) (range : List Nat)
    (halx : v.bits % 8 ≠ 0) (hc : c = v.bits / 8 + 1) (hv : v.WF)
    (hB : BV.leVal range.reverse < 2 ^ (c * 8)) (hlen : range.length = c) :
    Region.combined_bytes .big v c range =
      (BV.leBytes
        (((v.val <<< (8 - v.bits % 8)) &&&
            (((2 ^ (c * 8) - 1) <<< (8 - v.bits % 8)) % 2 ^ (c * 8))) |||
          (BV.leVal range.reverse &&&
            ((2 ^ (c * 8) - 1) ^^^
              (((2 ^ (c * 8) - 1) <<< (8 - v.bits % 8)) % 2 ^ (c * 8))))) c).reverse := by
  have halb : (v.bits % 8 == 0) = false := by simp [halx]
  have hsh : 8 - v.bits % 8 ≤ c * 8 := by omega
  have harr : c * 8 - (8 - v.bits % 8) = v.bits := by omega
  have hblt : (2 : Nat) ^ v.bits ≤ 2 ^ (c * 8) := two_pow_le_two_pow (by omega)
  have hpos : (0 : Nat) < 2 ^ (c * 8) := Nat.pos_pow_of_pos _ (by norm_num)
  have hvlt : v.val < 2 ^ (c * 8) := lt_of_lt_of_le hv hblt
  have hshl : v.val <<< (8 - v.bits % 8) < 2 ^ (c * 8) :=
    shiftLeft_lt_two_pow (by rw [harr]; exact hv) hsh
  have hM : ((2 ^ (c * 8) - 1) <<< (8 - v.bits % 8)) % 2 ^ (c * 8) < 2 ^ (c * 8) :=
    Nat.mod_lt _ hpos
  have hxlt : (2 ^ (c * 8) - 1) ^^^
      (((2 ^ (c * 8) - 1) <<< (8 - v.bits % 8)) % 2 ^ (c * 8)) < 2 ^ (c * 8) :=
    Nat.xor_lt_two_pow (by omega) hM
  have h8 : 8 * range.length = c * 8 := by rw [hlen]; ring
  unfold Region.combined_bytes
  simp only [halb, Bool.false_eq_true, if_false, Endian.is_little, if_true]
  simp only [BV.to_be_bytes, BV.lor, BV.land, BV.lnot, BV.shl, BV.max_value_with,
    BV.unsigned_cast, BV.from_be_bytes]
  simp only [h8, Nat.max_self]
  congr 2
  simp only [Nat.mod_mod]
  rw [Nat.mod_eq_of_lt (Nat.and_lt_two_pow _ hM), Nat.mod_eq_of_lt hxlt,
    Nat.mod_eq_of_lt (Nat.and_lt_two_pow _ hxlt), Nat.mod_eq_of_lt hvlt,
    Nat.mod_eq_of_lt hshl, Nat.mod_eq_of_lt hB]


/--
Claim C7: for every Region, every in-bounds address `a` and every
unsigned BitVec `v` whose covering bytes lie within the region,
`write_bits(a, v)` followed by `read_bits(a, width(v))` returns
exactly `v` --- for little- and big-endian regions and for both
byte-aligned and non-byte-aligned widths.  In-boundedness is the
success of the write.
-/
theorem region_write_read_roundtrip (r : Region) (a v : BV) (r1 : Region)
    (hv : v.WF) (hs : v.signed = false)
    (hb : ∀ x ∈ r.bytes, x < 256)
    (hw : Region.write_bits r a v = (.ok (), r1)) :
    Region.read_bits r1 a v.bits = .ok v := by
  cases hvb : Region.view_bytes_mut r a (Region.bitCount v.bits) with
  | err e =>
    rw [write_bits_err_case hvb] at hw
    exact absurd hw (by simp)
  | fault =>
    rw [write_bits_fault_case hvb] at hw
    exact absurd hw (by simp)
  | ok p =>
    obtain ⟨off, range⟩ := p
    rw [write_bits_ok_case hvb] at hw
    obtain ⟨hcont, hoff, hle, hrange⟩ := view_bytes_mut_ok_elim hvb
    have hr1 : r1 = _ := (congrArg Prod.snd hw).symm
    subst hr1
    set C := Region.bitCount v.bits with hC
    set NR := Region.combined_bytes r.endian v C range with hNRdef
    set NB := r.bytes.take off ++ NR ++ r.bytes.drop (off + C) with hNBdef
    have hcpos : 0 < C := by
      have h1 := hcont
      simp only [Region.contains_range, Bool.and_eq_true, decide_eq_true_eq] at h1
      exact h1.1.1
    have hrangelen : range.length = C := by
      rw [hrange]
      simp only [List.length_take, List.length_drop]
      omega
    have hrangemem : ∀ x ∈ range, x < 256 := by
      intro x hx
      apply hb
      rw [hrange] at hx
      exact List.drop_subset _ _ (List.take_subset _ _ hx)
    have hL : BV.leVal range < 2 ^ (C * 8) := by
      have h1 := leVal_lt range hrangemem
      rw [hrangelen, two_five_six_pow, Nat.mul_comm 8 C] at h1
      exact h1
    have hBrev : BV.leVal range.reverse < 2 ^ (C * 8) := by
      have hmem : ∀ x ∈ range.reverse, x < 256 := by
        intro x hx
        exact hrangemem x (List.mem_reverse.mp hx)
      have h1 := leVal_lt range.reverse hmem
      rw [List.length_reverse, hrangelen, two_five_six_pow, Nat.mul_comm 8 C] at h1
      exact h1
    have hNRlen : NR.length = C := by
      rw [hNRdef]
      exact combined_bytes_length r.endian v C range
    have hlen1 : NB.length = r.bytes.length := by
      rw [hNBdef]
      simp only [List.length_append, List.length_take, List.length_drop, hNRlen]
      omega
    have hcont1 : Region.contains_range { r with bytes := NB } a C = true := by
      rw [contains_range_bytes_congr r NB hlen1]
      exact hcont
    have hview1 : Region.view_bytes { r with bytes := NB } a C = .ok ((NB.drop off).take C) :=
      view_bytes_ok_intro hcont1 hoff (show off + C ≤ NB.length by rw [hlen1]; exact hle)
    have hslice : (NB.drop off).take C = NR := by
      rw [hNBdef, List.append_assoc]
      rw [List.drop_left' (show (r.bytes.take off).length = off by
        simp only [List.length_take]
        omega)]
      exact List.take_left' hNRlen
    rw [hslice] at hview1
    have hread := read_bits_ok_case hview1
    have hend2 : ({ r with bytes := NB } : Region).endian = r.endian := rfl
    rw [hend2] at hread
    rw [hread]
    by_cases hal : v.bits % 8 = 0
    · have halb : (v.bits % 8 == 0) = true := by simp [hal]
      have hC8 : 8 * C = v.bits := by
        rw [hC]
        simp only [Region.bitCount, halb, if_true]
        omega
      cases hend : r.endian with
      | little =>
        simp only [halb, if_true, hend, Endian.is_little]
        rw [hNRdef, hend, combined_bytes_le_aligned v C range hal]
        have h1 : BV.from_le_bytes (BV.leBytes v.val C) = ⟨v.val, v.bits, false⟩ := by
          simp only [BV.from_le_bytes, leVal_leBytes, leBytes_length]
          rw [two_five_six_pow, hC8, Nat.mod_eq_of_lt hv]
        rw [h1]
        obtain ⟨vv, vb, vs⟩ := v
        simp only at hs
        subst hs
        rfl
      | big =>
        simp only [halb, if_true, hend, Endian.is_little]
        rw [hNRdef, hend, combined_bytes_be_aligned v C range hal]
        have h1 : BV.from_be_bytes ((BV.leBytes v.val C).reverse) = ⟨v.val, v.bits, false⟩ := by
          simp only [BV.from_be_bytes, List.reverse_reverse, List.length_reverse,
            leVal_leBytes, leBytes_length]
          rw [two_five_six_pow, hC8, Nat.mod_eq_of_lt hv]
        rw [h1]
        obtain ⟨vv, vb, vs⟩ := v
        simp only at hs
        subst hs
        rfl
    · have halb : (v.bits % 8 == 0) = false := by simp [hal]
      have hCval : C = v.bits / 8 + 1 := by
        rw [hC]
        simp [Region.bitCount, halb]
      have hexp : C * 8 = v.bits + (8 - v.bits % 8) := by omega
      cases hend : r.endian with
      | little =>
        simp only [halb, Bool.false_eq_true, if_false, hend, Endian.is_little, if_true]
        rw [hNRdef, hend, combined_bytes_le_unaligned v C range hal hCval hv hL hrangelen]
        have hL8 : BV.leVal range < 2 ^ (v.bits + (8 - v.bits % 8)) := by
          rw [← hexp]
          exact hL
        obtain ⟨hWlt, hWmod, _⟩ :=
          le_word_spec v.val (BV.leVal range) v.bits (8 - v.bits % 8) hv hL8
        rw [hexp]
        have h1 : BV.from_le_bytes (BV.leBytes (v.val ||| (BV.leVal range &&&
            ((2 ^ (v.bits + (8 - v.bits % 8)) - 1) ^^^ (2 ^ v.bits - 1)))) C) =
            ⟨v.val ||| (BV.leVal range &&&
              ((2 ^ (v.bits + (8 - v.bits % 8)) - 1) ^^^ (2 ^ v.bits - 1))), 8 * C, false⟩ := by
          simp only [BV.from_le_bytes, leVal_leBytes, leBytes_length]
          congr 1
          rw [two_five_six_pow]
          apply Nat.mod_eq_of_lt
          rw [Nat.mul_comm 8 C, hexp]
          exact hWlt
        rw [h1]
        have h2 : (⟨v.val ||| (BV.leVal range &&&
            ((2 ^ (v.bits + (8 - v.bits % 8)) - 1) ^^^ (2 ^ v.bits - 1))), 8 * C, false⟩ :
              BV).cast v.bits = ⟨v.val, v.bits, false⟩ := by
          simp only [BV.cast]
          rw [hWmod]
        rw [h2]
        obtain ⟨vv, vb, vs⟩ := v
        simp only at hs
        subst hs
        rfl
      | big =>
        simp only [halb, Bool.false_eq_true, if_false, hend, Endian.is_little, if_true]
        rw [hNRdef, hend, combined_bytes_be_unaligned v C range hal hCval hv hBrev hrangelen]
        obtain ⟨hWlt, hWmod, _, _⟩ :=
          be_word_spec v.val (BV.leVal range.reverse) v.bits (8 - v.bits % 8) hv
            (by rw [← hexp]; exact hBrev)
        rw [hexp]
        have h1 : BV.from_be_bytes ((BV.leBytes
            (((v.val <<< (8 - v.bits % 8)) &&&
                (((2 ^ (v.bits + (8 - v.bits % 8)) - 1) <<< (8 - v.bits % 8)) %
                  2 ^ (v.bits + (8 - v.bits % 8)))) |||
              (BV.leVal range.reverse &&&
                ((2 ^ (v.bits + (8 - v.bits % 8)) - 1) ^^^
                  (((2 ^ (v.bits + (8 - v.bits % 8)) - 1) <<< (8 - v.bits % 8)) %
                    2 ^ (v.bits + (8 - v.bits % 8)))))) C).reverse) =
            ⟨((v.val <<< (8 - v.bits % 8)) &&&
                (((2 ^ (v.bits + (8 - v.bits % 8)) - 1) <<< (8 - v.bits % 8)) %
                  2 ^ (v.bits + (8 - v.bits % 8)))) |||
              (BV.leVal range.reverse &&&
                ((2 ^ (v.bits + (8 - v.bits % 8)) - 1) ^^^
                  (((2 ^ (v.bits + (8 - v.bits % 8)) - 1) <<< (8 - v.bits % 8)) %
                    2 ^ (v.bits + (8 - v.bits % 8))))), 8 * C, false⟩ := by
          simp only [BV.from_be_bytes, List.reverse_reverse, List.length_reverse,
            leVal_leBytes, leBytes_length]
          congr 1
          rw [two_five_six_pow]
          apply Nat.mod_eq_of_lt
          rw [Nat.mul_comm 8 C, hexp]
          exact hWlt
        rw [h1]
        have h2 : ((⟨((v.val <<< (8 - v.bits % 8)) &&&
                (((2 ^ (v.bits + (8 - v.bits % 8)) - 1) <<< (8 - v.bits % 8)) %
                  2 ^ (v.bits + (8 - v.bits % 8)))) |||
              (BV.leVal range.reverse &&&
                ((2 ^ (v.bits + (8 - v.bits % 8)) - 1) ^^^
                  (((2 ^ (v.bits + (8 - v.bits % 8)) - 1) <<< (8 - v.bits % 8)) %
                    2 ^ (v.bits + (8 - v.bits % 8))))), 8 * C, false⟩ :
              BV).shr (8 - v.bits % 8)).cast v.bits = ⟨v.val, v.bits, false⟩ := by
          simp only [BV.shr, BV.cast]
          rw [hWmod]
        rw [h2]
        obtain ⟨vv, vb, vs⟩ := v
        simp only at hs
        subst hs
        rfl


/--
Witness for C7: a little-endian byte-aligned roundtrip (writing `0xAB`
over `[0x00, 0x00]`) and a big-endian non-byte-aligned roundtrip
(writing the 4-bit value `0b1010` over `[0xFF, 0xFF]`).
-/
theorem region_write_read_roundtrip_witness :
    Region.read_bits ⟨"w", ⟨0, 8, false⟩, .little, [0xAB, 0x00]⟩ ⟨0, 8, false⟩ 8 =
        .ok ⟨0xAB, 8, false⟩ ∧
      Region.read_bits ⟨"x", ⟨0x20, 8, false⟩, .big, [0xAF, 0xFF]⟩ ⟨0x20, 8, false⟩ 4 =
        .ok ⟨0xA, 4, false⟩ :=
  ⟨region_write_read_roundtrip ⟨"w", ⟨0, 8, false⟩, .little, [0x00, 0x00]⟩
      ⟨0, 8, false⟩ ⟨0xAB, 8, false⟩ ⟨"w", ⟨0, 8, false⟩, .little, [0xAB, 0x00]⟩
      (by norm_num [BV.WF]) rfl (by decide) (by decide),
    region_write_read_roundtrip ⟨"x", ⟨0x20, 8, false⟩, .big, [0xFF, 0xFF]⟩
      ⟨0x20, 8, false⟩ ⟨0xA, 4, false⟩ ⟨"x", ⟨0x20, 8, false⟩, .big, [0xAF, 0xFF]⟩
      (by norm_num [BV.WF]) rfl (by decide) (by decide)⟩


/--
Claim C9: a non-byte-aligned `write_bits` preserves every bit of the
covering bytes outside the written bit window: bytes outside the
covering range are untouched, and within the covering word only the
window (`[0, bits)` of the little-endian word, `[shift, shift+bits)`
of the big-endian word) changes; in particular the spec's scenario S4
--- a big-endian region holding `FF FF` at `0x2000` yields `AF FF`
after `write_bits(0x2000, 0b1010:4)`.
-/
theorem region_unaligned_write_frame :
    (∀ (r : Region) (a v : BV) (r1 : Region) (off : Nat) (range : List Nat),
      v.WF → (∀ x ∈ r.bytes, x < 256) → v.bits % 8 ≠ 0 →
      Region.view_bytes_mut r a (Region.bitCount v.bits) = .ok (off, range) →
      Region.write_bits r a v = (.ok (), r1) →
      (∀ j : Nat, j < off ∨ off + Region.bitCount v.bits ≤ j →
        r1.bytes[j]? = r.bytes[j]?) ∧
      (r.endian = .little → ∀ i : Nat, v.bits ≤ i →
        (BV.leVal ((r1.bytes.drop off).take (Region.bitCount v.bits))).testBit i =
          (BV.leVal range).testBit i) ∧
      (r.endian = .big → ∀ i : Nat,
        i < 8 - v.bits % 8 ∨ v.bits + (8 - v.bits % 8) ≤ i →
        (BV.leVal (((r1.bytes.drop off).take (Region.bitCount v.bits)).reverse)).testBit i =
          (BV.leVal range.reverse).testBit i)) ∧
    (Region.write_bits ⟨"s4", ⟨0x2000, 16, false⟩, .big, [0xFF, 0xFF]⟩
        ⟨0x2000, 16, false⟩ ⟨0xA, 4, false⟩).2.bytes = [0xAF, 0xFF] ∧
    (Region.write_bits ⟨"s4", ⟨0x2000, 16, false⟩, .big, [0xFF, 0xFF]⟩
        ⟨0x2000, 16, false⟩ ⟨0xA, 4, false⟩).1 = .ok () := by
  refine ⟨?_, by decide, by decide⟩
  intro r a v r1 off range hv hb hal hvb hw
  rw [write_bits_ok_case hvb] at hw
  obtain ⟨hcont, hoff, hle, hrange⟩ := view_bytes_mut_ok_elim hvb
  have hr1 : r1 = _ := (congrArg Prod.snd hw).symm
  subst hr1
  set C := Region.bitCount v.bits with hC
  set NR := Region.combined_bytes r.endian v C range with hNRdef
  have hcpos : 0 < C := by
    have h1 := hcont
    simp only [Region.contains_range, Bool.and_eq_true, decide_eq_true_eq] at h1
    exact h1.1.1
  have hrangelen : range.length = C := by
    rw [hrange]
    simp only [List.length_take, List.length_drop]
    omega
  have hrangemem : ∀ x ∈ range, x < 256 := by
    intro x hx
    apply hb
    rw [hrange] at hx
    exact List.drop_subset _ _ (List.take_subset _ _ hx)
  have hL : BV.leVal range < 2 ^ (C * 8) := by
    have h1 := leVal_lt range hrangemem
    rw [hrangelen, two_five_six_pow, Nat.mul_comm 8 C] at h1
    exact h1
  have hBrev : BV.leVal range.reverse < 2 ^ (C * 8) := by
    have hmem : ∀ x ∈ range.reverse, x < 256 := by
      intro x hx
      exact hrangemem x (List.mem_reverse.mp hx)
    have h1 := leVal_lt range.reverse hmem
    rw [List.length_reverse, hrangelen, two_five_six_pow, Nat.mul_comm 8 C] at h1
    exact h1
  have hNRlen : NR.length = C := by
    rw [hNRdef]
    exact combined_bytes_length r.endian v C range
  have hCval : C = v.bits / 8 + 1 := by
    have halb : (v.bits % 8 == 0) = false := by simp [hal]
    rw [hC]
    simp [Region.bitCount, halb]
  have hexp : C * 8 = v.bits + (8 - v.bits % 8) := by omega
  have hbytes1 : (({ r with bytes := (r.bytes.take off ++ NR ++ r.bytes.drop (off + C)) } :
      Region)).bytes = r.bytes.take off ++ NR ++ r.bytes.drop (off + C) := rfl
  have hslice : ((r.bytes.take off ++ NR ++ r.bytes.drop (off + C)).drop off).take C = NR := by
    rw [List.append_assoc]
    rw [List.drop_left' (show (r.bytes.take off).length = off by
      simp only [List.length_take]
      omega)]
    exact List.take_left' hNRlen
  refine ⟨?_, ?_, ?_⟩
  · intro j hj
    rw [hbytes1]
    rcases hj with hj | hj
    · rw [List.append_assoc]
      rw [List.getElem?_append_left (by
        simp only [List.length_take]
        omega)]
      exact List.getElem?_take_of_lt hj
    · rw [List.getElem?_append_right (by
        simp only [List.length_append, List.length_take, hNRlen]
        omega)]
      rw [List.getElem?_drop]
      congr 1
      simp only [List.length_append, List.length_take, hNRlen]
      omega
  · intro hend i hi
    rw [hbytes1, hslice, hNRdef, hend,
      combined_bytes_le_unaligned v C range hal hCval hv hL hrangelen]
    rw [leVal_leBytes, two_five_six_pow, Nat.mul_comm 8 C]
    obtain ⟨hWlt, _, hframe⟩ :=
      le_word_spec v.val (BV.leVal range) v.bits (8 - v.bits % 8) hv
        (by rw [← hexp]; exact hL)
    rw [hexp]
    rw [Nat.mod_eq_of_lt hWlt]
    exact hframe i hi
  · intro hend i hi
    rw [hbytes1, hslice, hNRdef, hend,
      combined_bytes_be_unaligned v C range hal hCval hv hBrev hrangelen]
    rw [List.reverse_reverse, leVal_leBytes, two_five_six_pow, Nat.mul_comm 8 C]
    obtain ⟨hWlt, _, hlow, hhigh⟩ :=
      be_word_spec v.val (BV.leVal range.reverse) v.bits (8 - v.bits % 8) hv
        (by rw [← hexp]; exact hBrev)
    rw [hexp]
    rw [Nat.mod_eq_of_lt hWlt]
    rcases hi with hi | hi
    · exact hlow i hi
    · exact hhigh i hi

/--
Witness for C9: the frame theorem applied to the S4 scenario, checking
the untouched second byte and the preserved low nibble of the covering
byte.
-/
theorem region_unaligned_write_frame_witness :
    (⟨"s4", ⟨0x2000, 16, false⟩, .big, [0xAF, 0xFF]⟩ : Region).bytes[1]? =
        (⟨"s4", ⟨0x2000, 16, false⟩, .big, [0xFF, 0xFF]⟩ : Region).bytes[1]? ∧
      (BV.leVal ((((⟨"s4", ⟨0x2000, 16, false⟩, .big, [0xAF, 0xFF]⟩ : Region).bytes.drop 0).take
          (Region.bitCount 4)).reverse)).testBit 0 =
        (BV.leVal ([0xFF] : List Nat).reverse).testBit 0 := by
  have h := region_unaligned_write_frame.1
    ⟨"s4", ⟨0x2000, 16, false⟩, .big, [0xFF, 0xFF]⟩ ⟨0x2000, 16, false⟩ ⟨0xA, 4, false⟩
    ⟨"s4", ⟨0x2000, 16, false⟩, .big, [0xAF, 0xFF]⟩ 0 [0xFF]
    (by norm_num [BV.WF]) (by decide) (by norm_num) (by decide) (by decide)
  exact ⟨h.1 1 (Or.inr (by decide)), h.2.2 rfl 0 (Or.inl (by norm_num))⟩


/-!
The backend IL (fugue's ECode), modelled from the spec: the
disassembly backend is an external collaborator, and sections 3 and 6
of the spec give the abstract syntax of its statements, expressions
and branch annotations.
-/

/-- Modelled from the spec: an address-space identifier carrying its
register-space marker (`AddressSpaceId::is_register`). -/
structure SpaceId where
  index : Nat
  isRegister : Bool
  deriving DecidableEq, Repr

/-- Modelled from the spec: an ECode variable: space, byte offset,
bit width and SSA generation. -/
structure EVar where
  space : SpaceId
  offset : Nat
  bits : Nat
  generation : Nat
  deriving DecidableEq, Repr

/-- Modelled from the spec: a micro-op location: backend address
offset plus micro-op position. -/
structure BLoc where
  address : Nat
  position : Nat
  deriving DecidableEq, Repr

/-- Modelled from the spec: resize casts; `extract_low`/`extract_high`
build the low/high variants. -/
inductive Caste where
  | low (bits : Nat)
  | high (bits : Nat)
  deriving DecidableEq, Repr

mutual

/-- Modelled from the spec: the ECode expression algebra, with
exactly the variants matched by `visit_expr_mut` (aliases.rs:168-199);
operator kinds are abstracted as numeric tags. -/
inductive EExpr where
  | unrel (op : Nat) (e : EExpr)
  | unop (op : Nat) (e : EExpr)
  | binrel (op : Nat) (l r : EExpr)
  | binop (op : Nat) (l r : EExpr)
  | cast (e : EExpr) (c : Caste)
  | load (e : EExpr) (size : Nat) (space : SpaceId)
  | extract (e : EExpr) (lsb msb : Nat)
  | concat (l r : EExpr)
  | ite (c t f : EExpr)
  | call (t : ETarget) (args : List EExpr) (bits : Nat)
  | intrinsic (name : String) (args : List EExpr) (bits : Nat)
  | evar (v : EVar)
  | val (v : BV)

/-- Modelled from the spec: a branch target is a computed expression
or a location. -/
inductive ETarget where
  | computed (e : EExpr)
  | location (l : BLoc)

end

/-- Modelled from the spec: ECode statements. -/
inductive EStmt where
  | assign (v : EVar) (e : EExpr)
  | store (dst : EExpr) (src : EExpr) (size : Nat) (space : SpaceId)
  | branch (t : ETarget)
  | cbranch (c : EExpr) (t : ETarget)
  | call (t : ETarget) (args : List EExpr)
  | ret (t : ETarget)
  | skip
  | intrinsic (name : String) (args : List EExpr)

/-- Modelled from the spec: a lifted instruction: address, length in
bytes consumed, micro-op sequence. -/
structure ECode where
  address : Nat
  length : Nat
  operations : List EStmt

/-- `ECodeTarget` (lift/ecode/utils.rs:5): the classified edge kinds. -/
inductive ECodeTarget where
  | intraIns (l : BLoc)
  | intraBlk (l : BLoc)
  | interBlk (t : ETarget)
  | interSub (t : ETarget)
  | interRet (t : ETarget) (last : Bool)
  | intrinsic
  | unresolved

/-- `ECodeTarget::ends_block` (utils.rs:16). -/
def ECodeTarget.ends_block : ECodeTarget → Bool
  | .unresolved => true
  | .interBlk _ => true
  | .interRet _ true => true
  | _ => false

/-- `StmtExt::is_branch` (utils.rs:135). -/
def EStmt.is_branch : EStmt → Bool
  | .branch _ => true
  | .cbranch _ _ => true
  | .call _ _ => true
  | .intrinsic _ _ => true
  | .ret _ => true
  | _ => false

/-- The `is_local` closure of `branch_targets` (utils.rs:50). -/
def is_local (e : ECode) (loc : BLoc) : Bool := loc.address == e.address

/-- The `is_fall` closure of `branch_targets` (utils.rs:51). -/
def is_fall (e : ECode) (loc : BLoc) : Bool := loc.address == e.address + e.length

/-- The `nlocation` closure of `branch_targets` (utils.rs:53). -/
def nlocation (e : ECode) (i : Nat) : BLoc :=
  if i ≥ e.operations.length then ⟨e.address + e.length, i - e.operations.length⟩
  else ⟨e.address, i⟩

/-- The `nbranch` closure of `branch_targets` (utils.rs:59), returning
the classified target (the statement index is paired at the call
site). -/
def nbranch (e : ECode) (t : ETarget) : ECodeTarget :=
  match t with
  | .computed exp =>
    match exp with
    | .val bv =>
      match bv.to_u64 with
      | some off =>
        if off == e.address then .intraIns ⟨e.address, 0⟩
        else if off == e.address + e.length then .intraBlk ⟨e.address + e.length, 0⟩
        else .interBlk t
      | none => .unresolved
    | _ => .unresolved
  | .location loc =>
    if is_local e loc then .intraIns loc
    else if is_fall e loc then .intraBlk loc
    else .interBlk t

/-- The `nfall` closure of `branch_targets` (utils.rs:86). -/
def nfall (e : ECode) (fall : BLoc) : ECodeTarget :=
  if is_local e fall then .intraIns fall else .intraBlk fall

/-- The edges pushed by one iteration of the `branch_targets` loop
(utils.rs:94-119). -/
def stmtEdges (e : ECode) (i : Nat) (s : EStmt) : List (Nat × ECodeTarget) :=
  match s with
  | .branch t => [(i, nbranch e t)]
  | .cbranch _ t => [(i, nbranch e t), (i, nfall e (nlocation e (i + 1)))]
  | .call t _ => [(i, .interSub t), (i, nfall e (nlocation e (i + 1)))]
  | .ret t => [(i, .interRet t (i + 1 == e.operations.length))]
  | .intrinsic _ _ => [(i, .intrinsic), (i, nfall e (nlocation e (i + 1)))]
  | _ => if i + 1 == e.operations.length then [(i, nfall e (nlocation e (i + 1)))] else []

/-- The enumeration loop of `branch_targets` (utils.rs:94). -/
def btAux (e : ECode) : Nat → List EStmt → List (Nat × ECodeTarget)
  | _, [] => []
  | i, s :: rest => stmtEdges e i s ++ btAux e (i + 1) rest

/-- `ECodeExt::branch_targets` (utils.rs:43). -/
def branch_targets (e : ECode) : List (Nat × ECodeTarget) :=
  btAux e 0 e.operations

/-- Every edge pushed for statement `i` carries index `i`. -/
theorem stmtEdges_fst (e : ECode) (i : Nat) (s : EStmt) :
    ∀ p ∈ stmtEdges e i s, p.1 = i := by
  cases s <;> intro p hp <;>
    simp only [stmtEdges] at hp <;>
    (try split at hp) <;>
    simp only [List.mem_cons, List.mem_singleton, List.not_mem_nil, or_false] at hp <;>
    (rcases hp with rfl | rfl <;> rfl)

/-- A branch-kind statement, and the final statement, always push at
least one edge. -/
theorem stmtEdges_ne_nil (e : ECode) (i : Nat) (s : EStmt)
    (h : s.is_branch = true ∨ i + 1 = e.operations.length) :
    stmtEdges e i s ≠ [] := by
  cases s <;> simp only [stmtEdges] <;> simp_all [EStmt.is_branch]

theorem btAux_mem_of (e : ECode) :
    ∀ (ops : List EStmt) (j k : Nat) (hk : k < ops.length) (p : Nat × ECodeTarget),
      p ∈ stmtEdges e (j + k) (ops.get ⟨k, hk⟩) → p ∈ btAux e j ops := by
  intro ops
  induction ops with
  | nil => intro j k hk; exact absurd hk (by simp)
  | cons s rest ih =>
    intro j k hk p hp
    match k with
    | 0 =>
      simp only [List.get] at hp
      exact List.mem_append_left _ (by simpa using hp)
    | k + 1 =>
      apply List.mem_append_right
      have h1 : j + (k + 1) = (j + 1) + k := by omega
      rw [h1] at hp
      exact ih (j + 1) k (by simpa using hk) p hp

/-- A non-branch statement at a non-final position pushes no edge. -/
theorem stmtEdges_eq_nil (e : ECode) (i : Nat) (s : EStmt)
    (hnb : s.is_branch = false) (hnf : i + 1 ≠ e.operations.length) :
    stmtEdges e i s = [] := by
  cases s <;> simp_all [stmtEdges, EStmt.is_branch]

/-- Every edge of the enumeration loop comes from some statement's
`stmtEdges`. -/
theorem btAux_mem_elim (e : ECode) :
    ∀ (ops : List EStmt) (j : Nat) (p : Nat × ECodeTarget),
      p ∈ btAux e j ops →
      ∃ (k : Nat) (hk : k < ops.length), p ∈ stmtEdges e (j + k) (ops.get ⟨k, hk⟩) := by
  intro ops
  induction ops with
  | nil => intro j p hp; exact absurd hp (by simp [btAux])
  | cons s rest ih =>
    intro j p hp
    simp only [btAux, List.mem_append] at hp
    rcases hp with hp | hp
    · exact ⟨0, by simp, by simpa using hp⟩
    · obtain ⟨k, hk, hmem⟩ := ih (j + 1) p hp
      refine ⟨k + 1, by simpa using hk, ?_⟩
      have h1 : j + (k + 1) = (j + 1) + k := by omega
      rw [h1]
      simpa using hmem

theorem btAux_fst_bound (e : ECode) :
    ∀ (ops : List EStmt) (j : Nat) (p : Nat × ECodeTarget),
      p ∈ btAux e j ops → j ≤ p.1 ∧ p.1 < j + ops.length := by
  intro ops
  induction ops with
  | nil => intro j p hp; exact absurd hp (by simp [btAux])
  | cons s rest ih =>
    intro j p hp
    simp only [btAux, List.mem_append] at hp
    rcases hp with hp | hp
    · have := stmtEdges_fst e j s p hp
      simp only [List.length_cons]
      omega
    · have := ih (j + 1) p hp
      simp only [List.length_cons]
      omega

/-- The C3 counterexample instruction: a non-branch micro-op followed
by a return. -/
def c3Ex : ECode :=
  ⟨0x1000, 1, [.assign ⟨⟨1, true⟩, 0, 8, 0⟩ (.val ⟨1, 8, false⟩),
    .ret (.location ⟨0x2000, 0⟩)]⟩

/--
Claim C3 counterexample: in an instruction whose first micro-op is a
non-branch statement at a non-final position, `branch_targets` emits
no edge at index 0, refuting "at least one classified edge for every
statement index i in 0..n (including non-branch statements at
positions i with i+1 < n)".
-/
theorem branch_targets_totality_counterexample :
    ¬ (∀ i, i < c3Ex.operations.length → ∃ t, (i, t) ∈ branch_targets c3Ex) := by
  intro h
  obtain ⟨t, ht⟩ := h 0 (by norm_num [c3Ex])
  simp [branch_targets, c3Ex, btAux, stmtEdges] at ht

/--
Claim C3 (amended): for every lifted instruction, every statement that
is a branch statement (Branch, CBranch, Call, Return or Intrinsic) and
every statement at the final position yields at least one classified
edge, and every emitted edge's index is a valid statement index; every
edge's target is one of the seven `ECodeTarget` kinds by construction
of that type.  Non-branch statements at non-final positions yield no
edge.
-/
theorem branch_targets_amended (e : ECode) :
    (∀ (i : Nat) (hi : i < e.operations.length),
      (e.operations.get ⟨i, hi⟩).is_branch = true ∨ i + 1 = e.operations.length →
      ∃ t, (i, t) ∈ branch_targets e) ∧
    (∀ p ∈ branch_targets e, p.1 < e.operations.length) ∧
    (∀ (i : Nat) (hi : i < e.operations.length),
      (e.operations.get ⟨i, hi⟩).is_branch = false → i + 1 ≠ e.operations.length →
      ∀ t, (i, t) ∉ branch_targets e) := by
  refine ⟨?_, ?_, ?_⟩
  · intro i hi h
    obtain ⟨p, hp⟩ := List.exists_mem_of_ne_nil _ (stmtEdges_ne_nil e i _ h)
    have hfst := stmtEdges_fst e i _ p hp
    refine ⟨p.2, ?_⟩
    have h0 : (i, p.2) = p := by
      rw [← hfst]
    rw [h0]
    have := btAux_mem_of e e.operations 0 i hi p (by simpa using hp)
    simpa [branch_targets] using this
  · intro p hp
    have := btAux_fst_bound e e.operations 0 p (by simpa [branch_targets] using hp)
    omega
  · intro i hi hnb hnf t ht
    obtain ⟨k, hk, hmem⟩ :=
      btAux_mem_elim e e.operations 0 (i, t) (by simpa [branch_targets] using ht)
    have hfst := stmtEdges_fst e (0 + k) _ (i, t) hmem
    have hki : k = i := by
      simpa using hfst.symm
    subst hki
    rw [stmtEdges_eq_nil e (0 + k) (e.operations.get ⟨k, hk⟩) hnb (by omega)] at hmem
    exact absurd hmem (List.not_mem_nil _)

/--
Witness for C3 (amended): in the two-statement instruction `c3Ex` the
final Return yields an edge, every emitted edge index is below 2, and
the non-branch Assign at non-final position 0 yields no edge.
-/
theorem branch_targets_amended_witness :
    (∃ t, ((1 : Nat), t) ∈ branch_targets c3Ex) ∧
      (∀ p ∈ branch_targets c3Ex, p.1 < c3Ex.operations.length) ∧
      (∀ t, ((0 : Nat), t) ∉ branch_targets c3Ex) :=
  ⟨(branch_targets_amended c3Ex).1 1 (by norm_num [c3Ex]) (Or.inl rfl),
    (branch_targets_amended c3Ex).2.1,
    (branch_targets_amended c3Ex).2.2 0 (by norm_num [c3Ex]) rfl (by norm_num [c3Ex])⟩


/-!
The register-alias normalisation pass, translated from
`src/src/lift/passes/aliases.rs`.  The interval containers and the
visitor default hooks (`visit.rs`/`visit_mut.rs` are not under `src/`)
are modelled from the spec: default hooks recursively descend.
-/

/-- Modelled from the spec: a closed interval of byte offsets (the
interval crate is not under `src/`; ranges are normalised so that
`a..b` becomes `[a, b-1]` and `a..=b` becomes `[a, b]`). -/
structure Iv where
  start : Nat
  stop : Nat
  deriving DecidableEq, Repr

/-- Modelled from the spec: interval overlap, as used by
`IntervalSet::find_all`. -/
def Iv.overlaps (a b : Iv) : Bool := a.start ≤ b.stop && b.start ≤ a.stop

/-- `ECodeVarIndex` (aliases.rs:16): a space id plus an interval set
of byte ranges. -/
structure ECodeVarIndex where
  space_id : SpaceId
  index : List Iv
  deriving DecidableEq, Repr

namespace ECodeVarIndex

/-- `ECodeVarIndex::empty` (aliases.rs:22). -/
def empty (space : SpaceId) : ECodeVarIndex := ⟨space, []⟩

/-- `ECodeVarIndex::registers` (aliases.rs:29): for each register
`(offset, size)` insert the inclusive interval `offset..=(offset+size)`
from the backend's register table. -/
def registers (space : SpaceId) (regs : List (Nat × Nat)) : ECodeVarIndex :=
  ⟨space, regs.map (fun p => (⟨p.1, p.1 + p.2⟩ : Iv))⟩

/-- `ECodeVarIndex::interval` (aliases.rs:43): the half-open byte
range `offset..(offset + bits/8)`, normalised to inclusive bounds. -/
def interval (v : EVar) : Iv := ⟨v.offset, v.offset + v.bits / 8 - 1⟩

/-- `ECodeVarIndex::insert` (aliases.rs:47). -/
def insert (x : ECodeVarIndex) (v : EVar) : ECodeVarIndex :=
  { x with index := interval v :: x.index }

/-- Modelled from the spec: `IntervalSet::find_all` returns the
entries overlapping the query. -/
def find_all (x : ECodeVarIndex) (iv : Iv) : List Iv :=
  x.index.filter (fun e => Iv.overlaps e iv)

/-- `ECodeVarIndex::enclosing` (aliases.rs:51): fold the overlapping
entries, keeping an entry that is strictly larger on either edge and
at least as large on the other. -/
def enclosing (x : ECodeVarIndex) (v : EVar) : EVar :=
  let iv := interval v
  let riv := (x.find_all iv).foldl
    (fun best eiv =>
      if (eiv.start < best.start && best.stop ≤ eiv.stop) ||
          (eiv.start ≤ best.start && best.stop < eiv.stop) then eiv
      else best) iv
  ⟨x.space_id, riv.start, 8 * (1 + riv.stop - riv.start), v.generation⟩

end ECodeVarIndex

/-- `ECodeVarAliasNormalisePass` (aliases.rs:72): the register index
plus the per-pass map from space id to observed variable index (the
`BTreeMap` is modelled as a function to `Option`).  The constructor
asserts that `registers.space_id.is_register()` holds; the claims
instantiate it only that way. -/
structure AliasPass where
  registers : ECodeVarIndex
  indexes : SpaceId → Option ECodeVarIndex

/-- `ECodeVarAliasNormalisePass::new` (aliases.rs:78). -/
def AliasPass.new (registers : ECodeVarIndex) : AliasPass :=
  ⟨registers, fun _ => none⟩

/-- `ECodeVarAliasNormalisePass::insert` (aliases.rs:86): register
variables are skipped; others are recorded in their space's index. -/
def AliasPass.insert (p : AliasPass) (v : EVar) : AliasPass :=
  if v.space.isRegister then p
  else
    { p with indexes := fun s =>
        if s = v.space then
          some (((p.indexes v.space).getD (ECodeVarIndex.empty v.space)).insert v)
        else p.indexes s }

/-- `ECodeVarAliasNormalisePass::enclosing` (aliases.rs:97): consult
only the per-pass `indexes` map --- the `registers` field is never
read here (this is the C2 bug). -/
def AliasPass.enclosing (p : AliasPass) (v : EVar) : EVar :=
  match p.indexes v.space with
  | some idx => idx.enclosing v
  | none => v

/-- Modelled from the spec: `Expr::extract_low(expr, bits)`. -/
def extract_low (e : EExpr) (bits : Nat) : EExpr := .cast e (.low bits)

/-- Modelled from the spec: `Expr::extract_high(expr, bits)`. -/
def extract_high (e : EExpr) (bits : Nat) : EExpr := .cast e (.high bits)

/-- `ECodeVarAliasNormalisePass::resize_expr` (aliases.rs:108). -/
def resize_expr (svar pvar : EVar) (expr : EExpr) : EExpr :=
  match compare svar.bits pvar.bits with
  | .gt =>
    if svar.offset == pvar.offset then extract_low expr pvar.bits
    else
      .extract expr ((pvar.offset - svar.offset) * 8)
        ((pvar.offset - svar.offset) * 8 + pvar.bits)
  | .lt =>
    if svar.offset == pvar.offset then
      .concat (extract_high (.evar pvar) (pvar.bits - svar.bits)) expr
    else
      if svar.offset + svar.bits / 8 == pvar.bits / 8 then
        .concat expr (extract_low (.evar pvar) (pvar.bits - svar.bits))
      else
        .concat (extract_high (.evar pvar)
            (pvar.bits - svar.bits - (svar.offset - pvar.offset) * 8))
          (.concat expr (extract_low (.evar pvar) ((svar.offset - pvar.offset) * 8)))
  | .eq => expr

mutual

/-- `visit_expr_mut` (aliases.rs:168): default hooks descend; a
variable leaf is replaced by the resized enclosing variable. -/
def visitExprMut (p : AliasPass) : EExpr → EExpr
  | .unrel op e => .unrel op (visitExprMut p e)
  | .unop op e => .unop op (visitExprMut p e)
  | .binrel op l r => .binrel op (visitExprMut p l) (visitExprMut p r)
  | .binop op l r => .binop op (visitExprMut p l) (visitExprMut p r)
  | .cast e c => .cast (visitExprMut p e) c
  | .load e sz sp => .load (visitExprMut p e) sz sp
  | .extract e lsb msb => .extract (visitExprMut p e) lsb msb
  | .concat l r => .concat (visitExprMut p l) (visitExprMut p r)
  | .ite c t f => .ite (visitExprMut p c) (visitExprMut p t) (visitExprMut p f)
  | .call t args bits => .call (visitTargetMut p t) (visitExprListMut p args) bits
  | .intrinsic n args bits => .intrinsic n (visitExprListMut p args) bits
  | .evar v => resize_expr (p.enclosing v) v (.evar (p.enclosing v))
  | .val bv => .val bv

/-- Modelled from the spec: the default hook descends into every
argument expression. -/
def visitExprListMut (p : AliasPass) : List EExpr → List EExpr
  | [] => []
  | e :: es => visitExprMut p e :: visitExprListMut p es

/-- Modelled from the spec: the default hook descends into a computed
branch target. -/
def visitTargetMut (p : AliasPass) : ETarget → ETarget
  | .computed e => .computed (visitExprMut p e)
  | .location l => .location l

end

/-- `visit_stmt_mut` with the overridden `visit_stmt_assign_mut`
(aliases.rs:202): rewrite the right-hand side, then write to the
enclosing register carrying the original generation; other statements
descend per the default hooks. -/
def visitStmtMut (p : AliasPass) : EStmt → EStmt
  | .assign v e =>
    .assign ⟨(p.enclosing v).space, (p.enclosing v).offset, (p.enclosing v).bits, v.generation⟩
      (resize_expr v (p.enclosing v) (visitExprMut p e))
  | .store d s sz sp => .store (visitExprMut p d) (visitExprMut p s) sz sp
  | .branch t => .branch (visitTargetMut p t)
  | .cbranch c t => .cbranch (visitExprMut p c) (visitTargetMut p t)
  | .call t args => .call (visitTargetMut p t) (visitExprListMut p args)
  | .ret t => .ret (visitTargetMut p t)
  | .skip => .skip
  | .intrinsic n args => .intrinsic n (visitExprListMut p args)

mutual

/-- The index phase (`AllVariables`, aliases.rs:145): record every
variable reference. -/
def indexExpr (p : AliasPass) : EExpr → AliasPass
  | .unrel _ e => indexExpr p e
  | .unop _ e => indexExpr p e
  | .binrel _ l r => indexExpr (indexExpr p l) r
  | .binop _ l r => indexExpr (indexExpr p l) r
  | .cast e _ => indexExpr p e
  | .load e _ _ => indexExpr p e
  | .extract e _ _ => indexExpr p e
  | .concat l r => indexExpr (indexExpr p l) r
  | .ite c t f => indexExpr (indexExpr (indexExpr p c) t) f
  | .call t args _ => indexExprList (indexTarget p t) args
  | .intrinsic _ args _ => indexExprList p args
  | .evar v => p.insert v
  | .val _ => p

def indexExprList (p : AliasPass) : List EExpr → AliasPass
  | [] => p
  | e :: es => indexExprList (indexExpr p e) es

def indexTarget (p : AliasPass) : ETarget → AliasPass
  | .computed e => indexExpr p e
  | .location _ => p

end

/-- The index phase over one statement. -/
def indexStmt (p : AliasPass) : EStmt → AliasPass
  | .assign v e => indexExpr (p.insert v) e
  | .store d s _ _ => indexExpr (indexExpr p d) s
  | .branch t => indexTarget p t
  | .cbranch c t => indexTarget (indexExpr p c) t
  | .call t args => indexExprList (indexTarget p t) args
  | .ret t => indexTarget p t
  | .skip => p
  | .intrinsic _ args => indexExprList p args

/-- `ECodeVarAliasNormalisePass::apply` (aliases.rs:144): index every
variable, then rewrite every micro-op. -/
def AliasPass.apply (p : AliasPass) (e : ECode) : ECode :=
  { e with operations := e.operations.map (visitStmtMut (e.operations.foldl indexStmt p)) }

/-- The x86 register space used by the C2 scenario. -/
def x86RegSpace : SpaceId := ⟨1, true⟩

/-- The AL view: byte 0 of the EAX range, 8 bits wide, generation `g`. -/
def alVar (g : Nat) : EVar := ⟨x86RegSpace, 0, 8, g⟩

/-- The register index holding EAX, built as `registers` does from a
table entry `((0, 4), "EAX")`. -/
def x86Registers : ECodeVarIndex := ECodeVarIndex.registers x86RegSpace [(0, 4)]

/-- The C2 failing statement `AL ← AL + 1`. -/
def c2Stmt : EStmt := .assign (alVar 3) (.binop 0 (.evar (alVar 3)) (.val ⟨1, 8, false⟩))

/-- The instruction holding the C2 failing statement. -/
def c2ECode : ECode := ⟨0x4000, 2, [c2Stmt]⟩

/--
Claim C2 (code bug): applying the alias-normalisation pass to
`AL ← AL + 1` with EAX covering AL in the register index leaves the
statement completely unchanged, instead of rewriting it to
`EAX(g) ← concat(extract_high(EAX, 24), extract_low(EAX, 8) + 1)`:
the pass-level `enclosing` (aliases.rs:97) consults only the per-pass
`indexes` map, which `insert` (aliases.rs:86) never populates for the
register space, so the `registers` field is dead and register views
are never rewritten.
-/
theorem alias_pass_register_noop :
    (AliasPass.new x86Registers).apply c2ECode = c2ECode ∧
      (∀ (regs : ECodeVarIndex) (v : EVar), (AliasPass.new regs).enclosing v = v) ∧
      (alVar 3).bits = 8 := by
  refine ⟨rfl, fun regs v => rfl, rfl⟩


/-!
The lifter, translated from `src/src/lift/mod.rs` (`Lifter::lift_blk`
and `Lifter::lift_blk_with`).  The disassembly backend
(`Translator::lift_ecode`) is an external collaborator and is
abstracted as a function from context, backend address and byte view
to an optional instruction and updated context (`Err` from the backend
breaks the loop, so `Option` captures it).  The loop may fail to
advance when an instruction reports length 0, so the embedding carries
explicit fuel; the fuel-exhaustion case returns the accumulated `blks`
like every other loop exit.
-/

/-- Modelled from the spec: `u64::try_from(addr + offset)?`, the
conversion of an address to the backend's 64-bit address
(`AddrConvertError` when it does not fit). -/
def addr_to_backend (addr : BV) (offset : Nat) : Option Nat :=
  BV.to_u64 (Address.add_usize addr offset)

/-- The body of the `while offset < attempt_size` loop of
`lift_blk_with` (lift/mod.rs:162-205): lift one instruction, classify
its branch targets, stop on a block-ending flow, otherwise record the
statements and advance.  `blks` is the accumulator returned by the
function; the loop never pushes into it. -/
def liftLoop {Ctx : Type} (backend : Ctx → Nat → List Nat → Option (ECode × Ctx))
    (addr : BV) (bytes : List Nat) (attempt : Nat) :
    Nat → Ctx → Nat → List (ECode × List (Nat × ECodeTarget)) → List (Entity Blk) →
    Except Unit (List (Entity Blk))
  | fuel, ctxt, offset, stmts, blks =>
    if offset < attempt then
      match fuel with
      | 0 => .ok blks
      | fuel + 1 =>
        match addr_to_backend addr offset with
        | none => .error ()
        | some taddr =>
          match backend ctxt taddr (bytes.drop offset) with
          | none => .ok blks
          | some (ecode, ctxt1) =>
            if (branch_targets ecode).any (fun p => p.2.ends_block) then .ok blks
            else
              liftLoop backend addr bytes attempt fuel ctxt1 (offset + ecode.length)
                (stmts ++ [(ecode, branch_targets ecode)]) blks
    else .ok blks

/-- `Lifter::lift_blk_with` (lift/mod.rs:147): clamp the view to the
size hint, run the loop from offset 0 with empty accumulators, and
return `Ok(blks)`. -/
def lift_blk_with {Ctx : Type} (backend : Ctx → Nat → List Nat → Option (ECode × Ctx))
    (fuel : Nat) (ctxt : Ctx) (addr : BV) (bytes : List Nat) (size_hint : Option Nat) :
    Except Unit (List (Entity Blk)) :=
  let attempt_size := match size_hint with
    | some hint => min bytes.length hint
    | none => bytes.length
  liftLoop backend addr (bytes.take attempt_size) attempt_size fuel ctxt 0 [] []

/-- `Lifter::lift_blk` (lift/mod.rs:122). -/
def lift_blk {Ctx : Type} (backend : Ctx → Nat → List Nat → Option (ECode × Ctx))
    (fuel : Nat) (ctxt : Ctx) (addr : BV) (bytes : List Nat) :
    Except Unit (List (Entity Blk)) :=
  lift_blk_with backend fuel ctxt addr bytes none

/-- Whether a lift result is an error or an empty block list. -/
def exceptBlksEmpty : Except Unit (List (Entity Blk)) → Bool
  | .ok l => l.isEmpty
  | .error _ => true

theorem liftLoop_blks_constant {Ctx : Type}
    (backend : Ctx → Nat → List Nat → Option (ECode × Ctx))
    (addr : BV) (bytes : List Nat) (attempt : Nat) :
    ∀ (fuel : Nat) (ctxt : Ctx) (offset : Nat)
      (stmts : List (ECode × List (Nat × ECodeTarget))) (blks : List (Entity Blk)),
      liftLoop backend addr bytes attempt fuel ctxt offset stmts blks = .ok blks ∨
        liftLoop backend addr bytes attempt fuel ctxt offset stmts blks = .error () := by
  intro fuel
  induction fuel with
  | zero =>
    intro ctxt offset stmts blks
    rw [liftLoop]
    split
    · exact Or.inl rfl
    · exact Or.inl rfl
  | succ fuel ih =>
    intro ctxt offset stmts blks
    rw [liftLoop]
    split
    · cases addr_to_backend addr offset with
      | none => exact Or.inr rfl
      | some taddr =>
        simp only
        cases backend ctxt taddr (bytes.drop offset) with
        | none => exact Or.inl rfl
        | some pr =>
          obtain ⟨ecode, ctxt1⟩ := pr
          simp only
          split
          · exact Or.inl rfl
          · exact ih ctxt1 (offset + ecode.length) (stmts ++ [(ecode, branch_targets ecode)]) blks
    · exact Or.inl rfl

/-- Modelled from the spec: a backend decoding the single byte `0xC3`
(x86 `ret`) into a one-micro-op Return instruction of length 1, as in
scenario S6. -/
def retBackend : Unit → Nat → List Nat → Option (ECode × Unit) :=
  fun _ taddr bs =>
    match bs with
    | 0xC3 :: _ => some (⟨taddr, 1, [.ret (.computed (.evar ⟨⟨2, false⟩, 0, 32, 0⟩))]⟩, ())
    | _ => none

/--
Claim C1 (code bug): `lift_blk_with` declares `blks`, never pushes
into it, and returns `Ok(blks)` --- so every successful lift returns
the empty block list, never the "exactly one Blk whose terminating jmp
is a Return" the claim requires; in particular lifting the byte `0xC3`
at `0x1000` against a backend that decodes it as `ret` yields
`Ok([])`, zero Blks.
-/
theorem lift_blk_with_returns_no_blks :
    (∀ {Ctx : Type} (backend : Ctx → Nat → List Nat → Option (ECode × Ctx))
      (fuel : Nat) (ctxt : Ctx) (addr : BV) (bytes : List Nat) (hint : Option Nat),
      exceptBlksEmpty (lift_blk_with backend fuel ctxt addr bytes hint) = true) ∧
      lift_blk retBackend 9 () ⟨0x1000, 32, false⟩ [0xC3] = .ok [] := by
  constructor
  · intro Ctx backend fuel ctxt addr bytes hint
    unfold lift_blk_with
    rcases liftLoop_blks_constant backend addr
        (bytes.take (match hint with | some h => min bytes.length h | none => bytes.length))
        (match hint with | some h => min bytes.length h | none => bytes.length)
        fuel ctxt 0 [] [] with h | h
    · rw [h]
      rfl
    · rw [h]
      rfl
  · rfl

end Delirium
